import Mathlib

/-!
Verification development for the `angular_docs_crawler` package.

URLs are modelled as lists of characters; the functions below are shallow
embeddings of `urllib.parse.urlparse` / `urlunparse` (as used by the
crawler), of the crawler's own `is_valid_url`, `normalize_url`,
`save_page` path derivation and collision handling, and of the main
`crawl` loop as an explicit state-transition system.
-/

abbrev Str := List Char

/-- Leading characters stripped by `urlsplit` (WHATWG C0 control or space). -/
def strippable (c : Char) : Bool := c.toNat ≤ 32

/-- Characters removed anywhere in the URL by `urlsplit` (tab, CR, LF). -/
def unsafeChar (c : Char) : Bool := c == '\t' || c == '\r' || c == '\n'

/-- Preprocessing done by `urlsplit`: lstrip control/space, then drop unsafe chars. -/
def cleanUrl (u : Str) : Str := (u.dropWhile strippable).filter (fun c => !unsafeChar c)

/-- Characters allowed in a URL scheme (`scheme_chars` in `urllib.parse`). -/
def isSchemeChar (c : Char) : Bool :=
  (97 ≤ c.toNat && c.toNat ≤ 122) || (65 ≤ c.toNat && c.toNat ≤ 90) ||
  (48 ≤ c.toNat && c.toNat ≤ 57) || c == '+' || c == '-' || c == '.'

/-- ASCII lowercasing, as `str.lower` behaves on scheme characters. -/
def asciiLower (c : Char) : Char :=
  if 65 ≤ c.toNat && c.toNat ≤ 90 then Char.ofNat (c.toNat + 32) else c

/-- Split a list at the first occurrence of `c`, like `s.split(c, 1)`. -/
def splitFirst (c : Char) : Str → Option (Str × Str)
  | [] => none
  | x :: xs =>
    if x = c then some ([], xs)
    else (splitFirst c xs).map (fun p => (x :: p.1, p.2))

/-- Split a list at the last occurrence of `c`, like `rfind`-based splitting. -/
def splitLast (c : Char) (l : Str) : Option (Str × Str) :=
  (splitFirst c l.reverse).map (fun p => (p.2.reverse, p.1.reverse))

theorem splitFirst_eq_none {c : Char} : ∀ {l : Str}, splitFirst c l = none → c ∉ l := by
  intro l
  induction l with
  | nil => intro _ h; cases h
  | cons x xs ih =>
    intro h hm
    simp only [splitFirst] at h
    by_cases hx : x = c
    · simp [hx] at h
    · simp only [if_neg hx, Option.map_eq_none'] at h
      cases hm with
      | head => exact hx rfl
      | tail _ hm => exact ih h hm

theorem splitFirst_of_not_mem {c : Char} : ∀ {l : Str}, c ∉ l → splitFirst c l = none := by
  intro l
  induction l with
  | nil => intro _; rfl
  | cons x xs ih =>
    intro h
    have hx : x ≠ c := fun he => h (he ▸ List.mem_cons_self x xs)
    have hxs : c ∉ xs := fun hm => h (List.mem_cons_of_mem x hm)
    simp [splitFirst, if_neg hx, ih hxs]

theorem splitFirst_eq_some {c : Char} :
    ∀ {l a b : Str}, splitFirst c l = some (a, b) → l = a ++ c :: b ∧ c ∉ a := by
  intro l
  induction l with
  | nil => intro a b h; cases h
  | cons x xs ih =>
    intro a b h
    simp only [splitFirst] at h
    by_cases hx : x = c
    · simp only [if_pos hx, Option.some.injEq, Prod.mk.injEq] at h
      refine ⟨?_, ?_⟩
      · rw [← h.1, ← h.2, hx]; rfl
      · rw [← h.1]; exact List.not_mem_nil c
    · simp only [if_neg hx, Option.map_eq_some'] at h
      obtain ⟨⟨a', b'⟩, hs, he⟩ := h
      obtain ⟨h1, h2⟩ := ih hs
      cases he
      refine ⟨by simp [h1], ?_⟩
      intro hm
      cases hm with
      | head => exact hx rfl
      | tail _ hm => exact h2 hm

theorem splitFirst_append {c : Char} {a b : Str} (h : c ∉ a) :
    splitFirst c (a ++ c :: b) = some (a, b) := by
  induction a with
  | nil => simp [splitFirst]
  | cons x xs ih =>
    have hx : x ≠ c := fun he => h (he ▸ List.mem_cons_self x xs)
    have hxs : c ∉ xs := fun hm => h (List.mem_cons_of_mem x hm)
    simp [splitFirst, if_neg hx, ih hxs]

theorem splitLast_eq_some {c : Char} {l a b : Str} (h : splitLast c l = some (a, b)) :
    l = a ++ c :: b ∧ c ∉ b := by
  simp only [splitLast, Option.map_eq_some'] at h
  obtain ⟨⟨x, y⟩, hs, he⟩ := h
  obtain ⟨h1, h2⟩ := splitFirst_eq_some hs
  cases he
  constructor
  · have := congrArg List.reverse h1
    simpa using this
  · simpa using h2

theorem splitLast_eq_none {c : Char} {l : Str} (h : splitLast c l = none) : c ∉ l := by
  simp only [splitLast, Option.map_eq_none'] at h
  have := splitFirst_eq_none h
  intro hm
  exact this (List.mem_reverse.mpr hm)

theorem splitLast_of_not_mem {c : Char} {l : Str} (h : c ∉ l) : splitLast c l = none := by
  simp only [splitLast, Option.map_eq_none']
  exact splitFirst_of_not_mem (fun hm => h (List.mem_reverse.mp hm))

theorem splitLast_append {c : Char} {a b : Str} (h : c ∉ b) :
    splitLast c (a ++ c :: b) = some (a, b) := by
  have hrev : (a ++ c :: b).reverse = b.reverse ++ c :: a.reverse := by
    simp
  have hb : c ∉ b.reverse := fun hm => h (List.mem_reverse.mp hm)
  simp [splitLast, hrev, splitFirst_append hb]

/-! ### The `urllib.parse` model -/

/-- Result of `urlparse`: six components of a URL. -/
structure UrlParts where
  scheme : Str
  netloc : Str
  path : Str
  params : Str
  query : Str
  fragment : Str
deriving Repr, DecidableEq

/-- Scheme extraction step of `urlsplit`: the text before the first `:` is a
scheme when nonempty and made only of scheme characters; it is lowercased. -/
def splitScheme (u : Str) : Str × Str :=
  match splitFirst ':' u with
  | some (pre, post) =>
    if !pre.isEmpty && pre.all isSchemeChar then (pre.map asciiLower, post) else ([], u)
  | none => ([], u)

/-- Characters that terminate the netloc portion of a URL. -/
def netlocDelim (c : Char) : Bool := c == '/' || c == '?' || c == '#'

/-- Netloc extraction of `urlsplit`: after a leading `//`, up to `/`, `?` or `#`;
raises `ValueError` on an unbalanced square bracket in the netloc. -/
def splitNetloc (u : Str) : Except String (Str × Str) :=
  if u.take 2 = ['/', '/'] then
    let nl := (u.drop 2).takeWhile (fun c => !netlocDelim c)
    let rest := (u.drop 2).dropWhile (fun c => !netlocDelim c)
    if (nl.contains '[' && !nl.contains ']') || (nl.contains ']' && !nl.contains '[') then
      Except.error "Invalid IPv6 URL"
    else
      Except.ok (nl, rest)
  else
    Except.ok ([], u)

/-- Fragment split of `urlsplit` at the first `#`. -/
def splitFragment (u : Str) : Str × Str :=
  match splitFirst '#' u with
  | some (a, f) => (a, f)
  | none => (u, [])

/-- Query split of `urlsplit` at the first `?`. -/
def splitQuery (u : Str) : Str × Str :=
  match splitFirst '?' u with
  | some (a, q) => (a, q)
  | none => (u, [])

/-- `_splitparams`: split at the first `;` at or after the last `/`. -/
def splitParams (u : Str) : Str × Str :=
  match splitLast '/' u with
  | some (pre, post) =>
    match splitFirst ';' post with
    | some (a, b) => (pre ++ '/' :: a, b)
    | none => (u, [])
  | none =>
    match splitFirst ';' u with
    | some (a, b) => (a, b)
    | none => (u, [])

/-- Shallow embedding of `urllib.parse.urlparse` on strings (fragments allowed). -/
def urlparse (url : Str) : Except String UrlParts := do
  let (scheme, u1) := splitScheme (cleanUrl url)
  let (netloc, u2) ← splitNetloc u1
  let (u3, fragment) := splitFragment u2
  let (u4, query) := splitQuery u3
  let (path, params) := splitParams u4
  Except.ok ⟨scheme, netloc, path, params, query, fragment⟩

/-- Rejoin path and params with `;`, as `urlunparse` does. -/
def joinParams (p par : Str) : Str := if par = [] then p else p ++ ';' :: par

/-- Shallow embedding of `urllib.parse.urlunsplit`. -/
def urlunsplit (scheme netloc u query fragment : Str) : Str :=
  let u1 := if netloc ≠ [] ∨ (u ≠ [] ∧ u.take 2 = ['/', '/']) then
      ('/' :: '/' :: netloc) ++ (if u ≠ [] ∧ u.head? ≠ some '/' then '/' :: u else u)
    else u
  let u2 := if scheme ≠ [] then scheme ++ ':' :: u1 else u1
  let u3 := if query ≠ [] then u2 ++ '?' :: query else u2
  if fragment ≠ [] then u3 ++ '#' :: fragment else u3

/-- Shallow embedding of `urllib.parse.urlunparse`. -/
def urlunparse (r : UrlParts) : Str :=
  urlunsplit r.scheme r.netloc (joinParams r.path r.params) r.query r.fragment

/-- `AngularDocsCrawler.normalize_url`: re-serialize the parse with the
fragment removed. -/
def normalizeUrl (url : Str) : Except String Str :=
  (urlparse url).map (fun r => urlunparse { r with fragment := [] })

example :
    urlparse ("https://angular.dev/docs/guide?x=1#frag").toList =
      Except.ok ⟨("https").toList, ("angular.dev").toList, ("/docs/guide").toList,
        [], ("x=1").toList, ("frag").toList⟩ := by rfl

example :
    normalizeUrl ("https://angular.dev/docs/guide?x=1#frag").toList =
      Except.ok ("https://angular.dev/docs/guide?x=1").toList := by rfl

example : urlparse ("https://[").toList = Except.error "Invalid IPv6 URL" := by rfl

/-! ### The crawler configuration and `is_valid_url` -/

/-- `config.BASE_URL`. -/
def BASE_URL : Str := ("https://angular.dev").toList

/-- The two hosts accepted by `is_valid_url`. -/
def allowedHosts : List Str := [("angular.dev").toList, ("www.angular.dev").toList]

/-- Does `pat` occur at the start of the second list? -/
def startsWithL : Str → Str → Bool
  | [], _ => true
  | _ :: _, [] => false
  | a :: as, b :: bs => a == b && startsWithL as bs

/-- Python's substring test `pat in s`. -/
def hasSub (pat : Str) : Str → Bool
  | [] => pat.isEmpty
  | b :: bs => startsWithL pat (b :: bs) || hasSub pat bs

/-- `config.EXCLUDE_PATTERNS`. -/
def EXCLUDE_PATTERNS : List Str :=
  [("/api/").toList, ("/playground/").toList, ("/tutorial/playground").toList,
   (".pdf").toList, (".zip").toList, (".tar.gz").toList,
   ("mailto:").toList, ("javascript:").toList, ("#").toList]

/-- The body of `is_valid_url` after the `urlparse` call: require an allowed
host (when a host is present), no exclude pattern occurring in the raw URL,
and either the substring `/docs` occurring in the raw URL or equality with
`BASE_URL`. Each failed check is an early `return False` in the source. -/
def isValidCore (r : UrlParts) (url : Str) : Bool :=
  if r.netloc ≠ [] ∧ r.netloc ∉ allowedHosts then false
  else if EXCLUDE_PATTERNS.any (fun p => hasSub p url) then false
  else if ¬ (hasSub ("/docs").toList url) ∧ url ≠ BASE_URL then false
  else true

/-- `AngularDocsCrawler.is_valid_url`: parses the URL (which can raise
`ValueError`) and then applies the pure checks of `isValidCore`. -/
def isValidUrl (url : Str) : Except String Bool :=
  (urlparse url).map (fun r => isValidCore r url)

example : isValidUrl ("https://angular.dev/docs/overview").toList = Except.ok true := by rfl
example : isValidUrl ("https://example.com/docs").toList = Except.ok false := by rfl
example : isValidUrl ("https://angular.dev/playground/x").toList = Except.ok false := by rfl

/-! ### The crawl loop as a state-transition system -/

/-- Outcome of `download_page`'s request for one URL, as the engine sees it:
a successful response body within the size bound, an oversized body
(`len(response.content) > MAX_FILE_SIZE`), or a raised transport/status error. -/
inductive FetchResult where
  | success (text : Str)
  | oversized
  | failure
deriving Repr, DecidableEq

/-- The environment of one run: the network (`fetch`), the filesystem write
outcome inside `save_page` (`saveOk`), and the links extracted from the page
content of each URL (`links`). All are deterministic per URL within one run. -/
structure Oracle where
  fetch : Str → FetchResult
  saveOk : Str → Bool
  links : Str → List Str

/-- The mutable state of `AngularDocsCrawler.crawl`: `urls_to_process`,
`visited_urls`, `failed_urls`, the keys of `downloaded_files`, the URLs for
which `save_page` attempted a filesystem write, the URLs actually fetched
(each network request issued), and `processed_count`. -/
structure CrawlState where
  frontier : List Str
  visited : List Str
  failed : List Str
  downloaded : List Str
  writes : List Str
  fetchTrace : List Str
  count : Nat
deriving Repr

/-- Initial crawl state from a seed frontier. -/
def initState (seeds : List Str) : CrawlState := ⟨seeds, [], [], [], [], [], 0⟩

/-- One iteration of the `while urls_to_process:` loop: pop the head; if
visited, discard; else mark visited, fetch; on failure record in
`failed_urls`; on oversized skip; on truthy content attempt the save,
record in `downloaded_files` when the write succeeds, and enqueue the
extracted links not yet visited. -/
def crawlStep (O : Oracle) (s : CrawlState) : CrawlState :=
  match s.frontier with
  | [] => s
  | url :: rest =>
    if url ∈ s.visited then { s with frontier := rest }
    else
      let vis := url :: s.visited
      let tr := s.fetchTrace ++ [url]
      match O.fetch url with
      | .failure => ⟨rest, vis, url :: s.failed, s.downloaded, s.writes, tr, s.count⟩
      | .oversized => ⟨rest, vis, s.failed, s.downloaded, s.writes, tr, s.count⟩
      | .success text =>
        if text = [] then ⟨rest, vis, s.failed, s.downloaded, s.writes, tr, s.count⟩
        else
          let dl := if O.saveOk url then url :: s.downloaded else s.downloaded
          let fr := rest ++ (O.links url).filter (fun l => decide (l ∉ vis))
          ⟨fr, vis, s.failed, dl, s.writes ++ [url], tr, s.count + 1⟩

/-- Iterate the crawl loop a bounded number of times. -/
def crawlRun (O : Oracle) : Nat → CrawlState → CrawlState
  | 0, s => s
  | n + 1, s => crawlRun O n (crawlStep O s)

/-- Does the fetch of `u` produce truthy content (`if content:` succeeds)? -/
def fetchGood (O : Oracle) (u : Str) : Bool :=
  match O.fetch u with
  | .success t => !t.isEmpty
  | _ => false

/-- The loop invariant of `crawl` relating the pieces of crawler state. -/
structure CrawlInv (O : Oracle) (s : CrawlState) : Prop where
  nodupTrace : s.fetchTrace.Nodup
  traceVisited : ∀ u ∈ s.fetchTrace, u ∈ s.visited
  failedVisited : ∀ u ∈ s.failed, u ∈ s.visited
  downVisited : ∀ u ∈ s.downloaded, u ∈ s.visited
  disj : ∀ u ∈ s.downloaded, u ∉ s.failed
  downSave : ∀ u ∈ s.downloaded, O.saveOk u = true
  failedFetch : ∀ u ∈ s.failed, O.fetch u = .failure
  writesFetch : ∀ u ∈ s.writes, ∃ t, O.fetch u = .success t ∧ t ≠ []
  downWrites : ∀ u ∈ s.downloaded, u ∈ s.writes
  countEq : s.count = (s.fetchTrace.filter (fetchGood O)).length

theorem initState_inv (O : Oracle) (seeds : List Str) : CrawlInv O (initState seeds) := by
  refine ⟨?_, ?_, ?_, ?_, ?_, ?_, ?_, ?_, ?_, ?_⟩ <;> simp [initState]

theorem crawlStep_inv {O : Oracle} {s : CrawlState} (h : CrawlInv O s) :
    CrawlInv O (crawlStep O s) := by
  unfold crawlStep
  cases hf : s.frontier with
  | nil => exact h
  | cons url rest =>
    by_cases hv : url ∈ s.visited
    · simp only [if_pos hv]
      exact ⟨h.nodupTrace, h.traceVisited, h.failedVisited, h.downVisited, h.disj,
             h.downSave, h.failedFetch, h.writesFetch, h.downWrites, h.countEq⟩
    · simp only [if_neg hv]
      have hnt : url ∉ s.fetchTrace := fun hm => hv (h.traceVisited url hm)
      have hnodup : (s.fetchTrace ++ [url]).Nodup := by
        simp [List.nodup_append, h.nodupTrace, hnt]
      have htv : ∀ u ∈ s.fetchTrace ++ [url], u ∈ url :: s.visited := by
        intro u hu
        rcases List.mem_append.mp hu with h1 | h1
        · exact List.mem_cons_of_mem _ (h.traceVisited u h1)
        · simp at h1; simp [h1]
      have hfv : ∀ u ∈ s.failed, u ∈ url :: s.visited :=
        fun u hu => List.mem_cons_of_mem _ (h.failedVisited u hu)
      have hdv : ∀ u ∈ s.downloaded, u ∈ url :: s.visited :=
        fun u hu => List.mem_cons_of_mem _ (h.downVisited u hu)
      have hnfail : url ∉ s.failed := fun hm => hv (h.failedVisited url hm)
      have hndown : url ∉ s.downloaded := fun hm => hv (h.downVisited url hm)
      cases hfetch : O.fetch url with
      | failure =>
        have hg : fetchGood O url = false := by simp [fetchGood, hfetch]
        refine ⟨hnodup, htv, ?_, hdv, ?_, h.downSave, ?_, h.writesFetch, h.downWrites, ?_⟩
        · intro u hu
          rcases List.mem_cons.mp hu with h1 | h1
          · simp [h1]
          · exact hfv u h1
        · intro u hu hmem
          rcases List.mem_cons.mp hmem with h1 | h1
          · exact hndown (h1 ▸ hu)
          · exact h.disj u hu h1
        · intro u hu
          rcases List.mem_cons.mp hu with h1 | h1
          · rw [h1]; exact hfetch
          · exact h.failedFetch u h1
        · simpa [List.filter_append, hg] using h.countEq
      | oversized =>
        have hg : fetchGood O url = false := by simp [fetchGood, hfetch]
        refine ⟨hnodup, htv, hfv, hdv, h.disj, h.downSave, h.failedFetch, h.writesFetch,
          h.downWrites, ?_⟩
        simpa [List.filter_append, hg] using h.countEq
      | success text =>
        by_cases htext : text = []
        · simp only [if_pos htext]
          have hg : fetchGood O url = false := by simp [fetchGood, hfetch, htext]
          refine ⟨hnodup, htv, hfv, hdv, h.disj, h.downSave, h.failedFetch, h.writesFetch,
            h.downWrites, ?_⟩
          simpa [List.filter_append, hg] using h.countEq
        · simp only [if_neg htext]
          have hg : fetchGood O url = true := by
            simp [fetchGood, hfetch, List.isEmpty_iff, htext]
          have hw : ∀ u ∈ s.writes ++ [url], ∃ t, O.fetch u = .success t ∧ t ≠ [] := by
            intro u hu
            rcases List.mem_append.mp hu with h1 | h1
            · exact h.writesFetch u h1
            · simp at h1; exact ⟨text, h1 ▸ hfetch, htext⟩
          have hcnt : s.count + 1 = ((s.fetchTrace ++ [url]).filter (fetchGood O)).length := by
            simp [List.filter_append, hg, h.countEq]
          have hdw : ∀ u, u ∈ (if O.saveOk url then url :: s.downloaded else s.downloaded) →
              u ∈ s.writes ++ [url] := by
            intro u hu
            by_cases hsave : O.saveOk url = true
            · simp only [hsave, if_true] at hu
              rcases List.mem_cons.mp hu with h1 | h1
              · simp [h1]
              · exact List.mem_append_left _ (h.downWrites u h1)
            · simp only [eq_false_of_ne_true hsave, if_false] at hu
              exact List.mem_append_left _ (h.downWrites u hu)
          refine ⟨hnodup, htv, hfv, ?_, ?_, ?_, h.failedFetch, hw, hdw, hcnt⟩
          · intro u hu
            by_cases hsave : O.saveOk url = true
            · simp only [hsave, if_true] at hu
              rcases List.mem_cons.mp hu with h1 | h1
              · simp [h1]
              · exact hdv u h1
            · simp only [eq_false_of_ne_true hsave, if_false] at hu
              exact hdv u hu
          · intro u hu
            by_cases hsave : O.saveOk url = true
            · simp only [hsave, if_true] at hu
              rcases List.mem_cons.mp hu with h1 | h1
              · exact fun hm => hnfail (h1 ▸ hm)
              · exact h.disj u h1
            · simp only [eq_false_of_ne_true hsave, if_false] at hu
              exact h.disj u hu
          · intro u hu
            by_cases hsave : O.saveOk url = true
            · simp only [hsave, if_true] at hu
              rcases List.mem_cons.mp hu with h1 | h1
              · rw [h1]; exact hsave
              · exact h.downSave u h1
            · simp only [eq_false_of_ne_true hsave, if_false] at hu
              exact h.downSave u hu

theorem crawlRun_inv (O : Oracle) (n : Nat) (s : CrawlState) (h : CrawlInv O s) :
    CrawlInv O (crawlRun O n s) := by
  induction n generalizing s with
  | zero => exact h
  | succ n ih => exact ih _ (crawlStep_inv h)

/-- Equality of all control-flow-relevant state fields (everything except
`downloaded`, which never feeds back into the loop's control). -/
def SameCtl (s s' : CrawlState) : Prop :=
  s.frontier = s'.frontier ∧ s.visited = s'.visited ∧ s.failed = s'.failed ∧
  s.writes = s'.writes ∧ s.fetchTrace = s'.fetchTrace ∧ s.count = s'.count

theorem crawlStep_ctl {O O' : Oracle} (hfetch : O.fetch = O'.fetch)
    (hlinks : O.links = O'.links) {s s' : CrawlState} (h : SameCtl s s') :
    SameCtl (crawlStep O s) (crawlStep O' s') := by
  obtain ⟨e1, e2, e3, e4, e5, e6⟩ := h
  unfold crawlStep
  rw [← e1]
  cases hfr : s.frontier with
  | nil => exact ⟨e1, e2, e3, e4, e5, e6⟩
  | cons url rest =>
    rw [← e2, ← hfetch]
    by_cases hv : url ∈ s.visited
    · simp only [if_pos hv]
      exact ⟨rfl, rfl, e3, e4, e5, e6⟩
    · simp only [if_neg hv]
      cases O.fetch url with
      | failure => exact ⟨rfl, by rw [e2], by rw [e3], e4, by rw [e5], e6⟩
      | oversized => exact ⟨rfl, by rw [e2], e3, e4, by rw [e5], e6⟩
      | success text =>
        by_cases htext : text = []
        · simp only [if_pos htext]
          exact ⟨rfl, by rw [e2], e3, e4, by rw [e5], e6⟩
        · simp only [if_neg htext]
          exact ⟨by rw [e2, hlinks], by rw [e2], e3, by rw [e4], by rw [e5], by rw [e6]⟩

theorem crawlRun_ctl {O O' : Oracle} (hfetch : O.fetch = O'.fetch)
    (hlinks : O.links = O'.links) (n : Nat) {s s' : CrawlState} (h : SameCtl s s') :
    SameCtl (crawlRun O n s) (crawlRun O' n s') := by
  induction n generalizing s s' with
  | zero => exact h
  | succ n ih => exact ih (crawlStep_ctl hfetch hlinks h)

/-! ### Claims about the crawl loop -/

/-- Claim C1: for every run of the crawl engine — any environment oracle, any
seed frontier, any number of loop iterations — the list of URLs the engine
actually fetched contains no duplicates (each URL is fetched at most once,
even if it was enqueued multiple times), and every fetched URL is in the
visited set, having been added there upon being popped. -/
theorem claim_C1_fetch_at_most_once (O : Oracle) (seeds : List Str) (n : Nat) :
    ((crawlRun O n (initState seeds)).fetchTrace).Nodup ∧
      ∀ u ∈ (crawlRun O n (initState seeds)).fetchTrace,
        u ∈ (crawlRun O n (initState seeds)).visited := by
  have h := crawlRun_inv O n _ (initState_inv O seeds)
  exact ⟨h.nodupTrace, h.traceVisited⟩

/-- Claim C6 (as stated, confirmed): at every point of every run, no URL is
both in `downloaded_files` and in `failed_urls`. -/
theorem claim_C6_mutual_exclusion (O : Oracle) (seeds : List Str) (n : Nat) (u : Str) :
    ¬(u ∈ (crawlRun O n (initState seeds)).downloaded ∧
        u ∈ (crawlRun O n (initState seeds)).failed) := by
  have h := crawlRun_inv O n _ (initState_inv O seeds)
  exact fun hc => h.disj u hc.1 hc.2

/-- Claim C9 (as stated, confirmed): if the filesystem write fails for a URL,
that URL never enters `downloaded_files`; and the rest of the crawl is
unaffected by save outcomes — two runs whose environments agree on fetch
results and extracted links produce identical frontier, visited set, failed
set, write attempts, fetch trace and page count, so the crawl continues with
the remaining frontier and the failed save is never retried. -/
theorem claim_C9_save_failure (O O' : Oracle) (seeds : List Str) (n : Nat) (u : Str)
    (hfetch : O.fetch = O'.fetch) (hlinks : O.links = O'.links)
    (hsave : O.saveOk u = false) :
    u ∉ (crawlRun O n (initState seeds)).downloaded ∧
      SameCtl (crawlRun O n (initState seeds)) (crawlRun O' n (initState seeds)) := by
  have h := crawlRun_inv O n _ (initState_inv O seeds)
  constructor
  · intro hm
    have := h.downSave u hm
    rw [hsave] at this
    exact Bool.false_ne_true this
  · exact crawlRun_ctl hfetch hlinks n ⟨rfl, rfl, rfl, rfl, rfl, rfl⟩

/-- The documentation seed URL used for concrete runs. -/
def uDocs : Str := ("https://angular.dev/docs").toList

/-- An environment whose fetches always succeed with body `"x"` but whose
filesystem writes always fail. -/
def oracleSaveFail : Oracle := ⟨fun _ => .success (("x").toList), fun _ => false, fun _ => []⟩

/-- Same network as `oracleSaveFail`, but writes succeed. -/
def oracleSaveOk : Oracle := ⟨fun _ => .success (("x").toList), fun _ => true, fun _ => []⟩

theorem claim_C9_witness :
    oracleSaveFail.fetch = oracleSaveOk.fetch ∧ oracleSaveFail.links = oracleSaveOk.links ∧
      oracleSaveFail.saveOk uDocs = false ∧
      (uDocs ∉ (crawlRun oracleSaveFail 2 (initState [uDocs])).downloaded ∧
        SameCtl (crawlRun oracleSaveFail 2 (initState [uDocs]))
          (crawlRun oracleSaveOk 2 (initState [uDocs]))) :=
  ⟨rfl, rfl, rfl, claim_C9_save_failure oracleSaveFail oracleSaveOk [uDocs] 2 uDocs rfl rfl rfl⟩

/-- An environment where every fetch returns an oversized body. -/
def oracleOversized : Oracle := ⟨fun _ => .oversized, fun _ => true, fun _ => []⟩

/-- Claim C2 counterexample: in a concrete run whose only fetch returns an
oversized body, the engine fetches the seed (so the oversized rejection does
happen) and writes no file, but — contrary to the claim — `failed_urls`
stays empty: `download_page` returns `None` for an oversized body without
ever executing `self.failed_urls.add(url)`, which lives only in the
exception handler. -/
theorem claim_C2_counterexample :
    (crawlRun oracleOversized 1 (initState [uDocs])).fetchTrace = [uDocs] ∧
      oracleOversized.fetch uDocs = .oversized ∧
      (crawlRun oracleOversized 1 (initState [uDocs])).failed = [] ∧
      (crawlRun oracleOversized 1 (initState [uDocs])).writes = [] :=
  ⟨rfl, rfl, rfl, rfl⟩

/-- Claim C2 (amended): for every URL whose fetch returns an oversized body,
the engine attempts no filesystem write for it and records it neither in
`downloaded_files` nor — contrary to the original claim — in `failed_urls`;
the oversized response is skipped silently (only logged). -/
theorem claim_C2_amended (O : Oracle) (seeds : List Str) (n : Nat) (u : Str)
    (h : O.fetch u = .oversized) :
    u ∉ (crawlRun O n (initState seeds)).writes ∧
      u ∉ (crawlRun O n (initState seeds)).downloaded ∧
      u ∉ (crawlRun O n (initState seeds)).failed := by
  have hinv := crawlRun_inv O n _ (initState_inv O seeds)
  refine ⟨?_, ?_, ?_⟩
  · intro hm
    obtain ⟨t, ht, -⟩ := hinv.writesFetch u hm
    rw [h] at ht
    cases ht
  · intro hm
    obtain ⟨t, ht, -⟩ := hinv.writesFetch u (hinv.downWrites u hm)
    rw [h] at ht
    cases ht
  · intro hm
    have := hinv.failedFetch u hm
    rw [h] at this
    cases this

theorem claim_C2_amended_witness :
    oracleOversized.fetch uDocs = .oversized ∧
      (uDocs ∉ (crawlRun oracleOversized 1 (initState [uDocs])).writes ∧
        uDocs ∉ (crawlRun oracleOversized 1 (initState [uDocs])).downloaded ∧
        uDocs ∉ (crawlRun oracleOversized 1 (initState [uDocs])).failed) :=
  ⟨rfl, claim_C2_amended oracleOversized [uDocs] 1 uDocs rfl⟩

/-- An environment whose fetches succeed with an empty body. -/
def oracleEmptyBody : Oracle := ⟨fun _ => .success [], fun _ => true, fun _ => []⟩

/-- Claim C10 counterexample: in a concrete run the seed's fetch succeeds
(returning an empty body), yet `processed_count` stays 0: `if content:` is
false for an empty string, so a successful fetch with empty body does not
increment the total-pages count, contradicting the claim that the count
equals the number of URLs whose fetch succeeded. -/
theorem claim_C10_counterexample :
    (crawlRun oracleEmptyBody 1 (initState [uDocs])).fetchTrace = [uDocs] ∧
      oracleEmptyBody.fetch uDocs = .success [] ∧
      (crawlRun oracleEmptyBody 1 (initState [uDocs])).count = 0 :=
  ⟨rfl, rfl, rfl⟩

/-- Claim C10 (amended): the final `total_pages` count equals the number of
fetched URLs whose fetch succeeded with truthy (non-empty) content —
including URLs whose subsequent save failed; URLs whose fetch failed, was
oversized, or returned an empty body are marked visited without
incrementing the count. -/
theorem claim_C10_amended (O : Oracle) (seeds : List Str) (n : Nat) :
    (crawlRun O n (initState seeds)).count =
      ((crawlRun O n (initState seeds)).fetchTrace.filter (fetchGood O)).length ∧
      ∀ u ∈ (crawlRun O n (initState seeds)).fetchTrace,
        u ∈ (crawlRun O n (initState seeds)).visited := by
  have h := crawlRun_inv O n _ (initState_inv O seeds)
  exact ⟨h.countEq, h.traceVisited⟩

/-! ### Claims C4 and C5: `is_valid_url` -/

/-- A URL whose path lacks `/docs` but whose query contains it. -/
def uQueryDocs : Str := ("https://angular.dev/foo?x=/docs").toList

/-- Claim C4 counterexample: `uQueryDocs` parses to a path `/foo` that does
not contain the documentation-root marker, and it is not the base URL, yet
`is_valid_url` accepts it: the source tests `'/docs' not in url` on the
whole URL string, so a marker occurring only in the query admits the URL. -/
theorem claim_C4_counterexample :
    (∃ r, urlparse uQueryDocs = Except.ok r ∧ hasSub (("/docs").toList) r.path = false) ∧
      uQueryDocs ≠ BASE_URL ∧ isValidUrl uQueryDocs = Except.ok true := by
  refine ⟨⟨⟨("https").toList, ("angular.dev").toList, ("/foo").toList, [],
    ("x=/docs").toList, []⟩, by rfl, by rfl⟩, by decide, by rfl⟩

/-- Claim C4 (amended): the marker test is applied to the entire URL string,
not to the path: for every URL on which `urlparse` succeeds, if the
substring `/docs` occurs nowhere in the whole URL string and the URL is not
exactly the configured base URL, then `is_valid_url` returns `False`. -/
theorem claim_C4_amended (url : Str) (r : UrlParts) (h : urlparse url = Except.ok r)
    (hd : hasSub (("/docs").toList) url = false) (hb : url ≠ BASE_URL) :
    isValidUrl url = Except.ok false := by
  rw [isValidUrl, h]
  simp only [Except.map]
  have hd2 : hasSub (['/', 'd', 'o', 'c', 's'] : Str) url = false := hd
  by_cases h1 : r.netloc ≠ [] ∧ r.netloc ∉ allowedHosts
  · simp [isValidCore, h1]
  · by_cases h2 : EXCLUDE_PATTERNS.any (fun p => hasSub p url) = true
    · simp [isValidCore, h1, h2, hd2]
    · have h3 : ¬ (hasSub (("/docs").toList) url = true) ∧ url ≠ BASE_URL :=
        ⟨by simp [hd2], hb⟩
      simp [isValidCore, h1, h2, h3, hd2]

theorem claim_C4_witness :
    urlparse (("https://example.com/x").toList) =
        Except.ok ⟨("https").toList, ("example.com").toList, ("/x").toList, [], [], []⟩ ∧
      hasSub (("/docs").toList) (("https://example.com/x").toList) = false ∧
      ("https://example.com/x").toList ≠ BASE_URL ∧
      isValidUrl (("https://example.com/x").toList) = Except.ok false :=
  ⟨by rfl, by rfl, by decide,
    claim_C4_amended (("https://example.com/x").toList) _ (by rfl) (by rfl) (by decide)⟩

/-- Claim C5 counterexample: `is_valid_url` does not return a boolean for
every input string — an unbalanced square bracket in the authority makes
`urlparse` raise `ValueError("Invalid IPv6 URL")`, which propagates. -/
theorem claim_C5_counterexample :
    isValidUrl (("https://[").toList) = Except.error "Invalid IPv6 URL" := by rfl

/-- Claim C5 (amended): `is_valid_url` performs no I/O and has no side
effects, and for every input string on which `urlparse` succeeds it returns
a boolean; but for inputs with an unbalanced bracket in the authority the
underlying `urlparse` raises `ValueError`, which `is_valid_url` propagates. -/
theorem claim_C5_amended (url : Str) (r : UrlParts) (h : urlparse url = Except.ok r) :
    ∃ b : Bool, isValidUrl url = Except.ok b := by
  exact ⟨isValidCore r url, by rw [isValidUrl, h]; rfl⟩

theorem claim_C5_witness :
    urlparse uDocs =
        Except.ok ⟨("https").toList, ("angular.dev").toList, ("/docs").toList, [], [], []⟩ ∧
      ∃ b : Bool, isValidUrl uDocs = Except.ok b :=
  ⟨by rfl, claim_C5_amended uDocs ⟨("https").toList, ("angular.dev").toList,
    ("/docs").toList, [], [], []⟩ (by rfl)⟩

/-! ### Claim C3: `save_page` path derivation -/

/-- Python `str.split(c)` on a list of characters (keeps empty segments). -/
def splitAllAux (c : Char) : Str → Str → List Str
  | [], acc => [acc.reverse]
  | x :: xs, acc =>
    if x = c then acc.reverse :: splitAllAux c xs [] else splitAllAux c xs (x :: acc)

/-- Python `str.split(c)`. -/
def splitAll (c : Char) (l : Str) : List Str := splitAllAux c l []

/-- `[part for part in parsed.path.split('/') if part]`. -/
def pathParts (p : Str) : List Str := (splitAll '/' p).filter (fun s => !s.isEmpty)

/-- The default filename. -/
def INDEX_HTML : Str := ("index.html").toList

/-- The documentation-root marker segment. -/
def DOCS_SEG : Str := ("docs").toList

/-- The file-path derivation of `save_page` before sanitization and
collision handling: the directory (as a list of path segments relative to
`DOCS_DIR`) and the nominal filename. -/
def mapToPath (path : Str) : List Str × Str :=
  let parts := pathParts path
  let filename :=
    match parts.getLast? with
    | none => INDEX_HTML
    | some lastSeg => if lastSeg = DOCS_SEG then INDEX_HTML else lastSeg ++ (".html").toList
  let dir := if parts.length > 1 then parts.dropLast else []
  (dir, filename)

/-- `save_page` applied to a URL: parse it and derive the target location
from the parsed path. -/
def savePageTarget (url : Str) : Except String (List Str × Str) :=
  (urlparse url).map (fun r => mapToPath r.path)

/-- A URL whose final path segment is the marker but which has an earlier
segment as well. -/
def uGuideDocs : Str := ("https://angular.dev/guide/docs").toList

/-- Claim C3 counterexample: for `https://angular.dev/guide/docs` the final
path segment equals the documentation-root marker, yet the target file is
`index.html` under `docsRoot/guide`, not directly under `docsRoot`: the
source joins `DOCS_DIR` with all segments but the last whenever there are
two or more segments, regardless of the filename choice. -/
theorem claim_C3_counterexample :
    (∃ r, urlparse uGuideDocs = Except.ok r ∧
        (pathParts r.path).getLast? = some DOCS_SEG) ∧
      savePageTarget uGuideDocs = Except.ok ([("guide").toList], INDEX_HTML) ∧
      ([("guide").toList], INDEX_HTML) ≠ (([] : List Str), INDEX_HTML) := by
  refine ⟨⟨⟨("https").toList, ("angular.dev").toList, ("/guide/docs").toList, [], [], []⟩,
    by rfl, by rfl⟩, by rfl, by decide⟩

/-- Claim C3 (amended): for every URL on which `urlparse` succeeds, writing
`parts` for the non-empty segments of the parsed path: if `parts` is empty
the target is `index.html` directly under `docsRoot`; if the final segment
is the marker the filename is `index.html` but the directory is `docsRoot`
joined with all segments except the last (so only directly under
`docsRoot` when there is at most one segment); otherwise the target is
`<lastSegment>.html` under `docsRoot` joined with all segments except the
last. -/
theorem claim_C3_amended (url : Str) (r : UrlParts) (h : urlparse url = Except.ok r) :
    (pathParts r.path = [] → savePageTarget url = Except.ok ([], INDEX_HTML)) ∧
      (∀ segs, pathParts r.path = segs ++ [DOCS_SEG] →
        savePageTarget url = Except.ok (segs, INDEX_HTML)) ∧
      (∀ segs lastSeg, pathParts r.path = segs ++ [lastSeg] → lastSeg ≠ DOCS_SEG →
        savePageTarget url = Except.ok (segs, lastSeg ++ (".html").toList)) := by
  have hbase : savePageTarget url = Except.ok (mapToPath r.path) := by
    rw [savePageTarget, h]; rfl
  have hdir : ∀ (segs : List Str) (x : Str),
      (if (segs ++ [x]).length > 1 then (segs ++ [x]).dropLast else []) = segs := by
    intro segs x
    cases segs with
    | nil => simp
    | cons a as =>
      have hlen : ((a :: as) ++ [x]).length > 1 := by
        simp [List.length_append]
      rw [if_pos hlen]
      show ((a :: as) ++ [x]).dropLast = a :: as
      exact List.dropLast_concat
  refine ⟨?_, ?_, ?_⟩
  · intro hnil
    rw [hbase, mapToPath, hnil]
    rfl
  · intro segs hsegs
    rw [hbase, mapToPath, hsegs]
    have hlast : (segs ++ [DOCS_SEG]).getLast? = some DOCS_SEG := by
      simp
    simp only [hlast, hdir segs DOCS_SEG]
    simp
  · intro segs lastSeg hsegs hne
    rw [hbase, mapToPath, hsegs]
    have hlast : (segs ++ [lastSeg]).getLast? = some lastSeg := by
      simp
    simp only [hlast, hdir segs lastSeg]
    simp [hne]

theorem claim_C3_witness :
    urlparse uGuideDocs =
        Except.ok ⟨("https").toList, ("angular.dev").toList, ("/guide/docs").toList,
          [], [], []⟩ ∧
      (∀ segs, pathParts ("/guide/docs").toList = segs ++ [DOCS_SEG] →
        savePageTarget uGuideDocs = Except.ok (segs, INDEX_HTML)) :=
  ⟨by rfl,
    (claim_C3_amended uGuideDocs ⟨("https").toList, ("angular.dev").toList,
      ("/guide/docs").toList, [], [], []⟩ (by rfl)).2.1⟩

/-! ### Claim C7: `save_page` collision handling -/

/-- Decimal digits of a positive number, most significant first (fuelled). -/
def natToDecAux : Nat → Nat → Str
  | 0, _ => []
  | fuel + 1, n => if n = 0 then [] else natToDecAux fuel (n / 10) ++ [Nat.digitChar (n % 10)]

/-- Python's decimal rendering of a natural number (`f"{counter}"`). -/
def natToDec (n : Nat) : Str := if n = 0 then [('0' : Char)] else natToDecAux n n

/-- Decode a digit string back to a number (left fold). -/
def decBack (l : Str) : Nat := List.foldl (fun a c => 10 * a + (c.toNat - 48)) 0 l

theorem natToDecAux_zero (fuel : Nat) : natToDecAux fuel 0 = [] := by
  cases fuel <;> simp [natToDecAux]

theorem decBack_append_digit (l : Str) (c : Char) :
    decBack (l ++ [c]) = 10 * decBack l + (c.toNat - 48) := by
  simp [decBack, List.foldl_append]

theorem digitChar_back {d : Nat} (h : d < 10) : (Nat.digitChar d).toNat - 48 = d := by
  interval_cases d <;> rfl

theorem decBack_natToDecAux : ∀ fuel n, n ≤ fuel → 1 ≤ n → decBack (natToDecAux fuel n) = n := by
  intro fuel
  induction fuel with
  | zero => intro n h1 h2; omega
  | succ fuel ih =>
    intro n h1 h2
    have hne : n ≠ 0 := by omega
    rw [natToDecAux, if_neg hne, decBack_append_digit, digitChar_back (Nat.mod_lt n (by omega))]
    by_cases hq : n / 10 = 0
    · rw [hq, natToDecAux_zero]
      have : n % 10 = n := Nat.mod_eq_of_lt (by omega)
      simp [decBack, this]
    · have hq1 : 1 ≤ n / 10 := by omega
      have hqf : n / 10 ≤ fuel := by
        have := Nat.div_lt_self (show 0 < n by omega) (show 1 < 10 by omega)
        omega
      rw [ih (n / 10) hqf hq1]
      omega

theorem natToDec_inj {i j : Nat} (hi : 1 ≤ i) (hj : 1 ≤ j) (h : natToDec i = natToDec j) :
    i = j := by
  have hi0 : i ≠ 0 := by omega
  have hj0 : j ≠ 0 := by omega
  rw [natToDec, natToDec, if_neg hi0, if_neg hj0] at h
  have := congrArg decBack h
  rw [decBack_natToDecAux i i le_rfl hi, decBack_natToDecAux j j le_rfl hj] at this
  exact this

/-- The basename part of `pre` (after its last slash, if any), used by the
`splitext` all-dots check. -/
def extBase (pre : Str) : Str :=
  match splitLast '/' pre with
  | none => pre
  | some q => q.2

/-- `os.path.splitext`: split at the last dot, provided it lies after the
last slash and the basename up to it is not made only of dots. -/
def splitext (p : Str) : Str × Str :=
  match splitLast '.' p with
  | none => (p, [])
  | some (pre, post) =>
    if post.contains '/' then (p, [])
    else if (extBase pre).any (fun c => !(c == '.')) then (pre, '.' :: post) else (p, [])

example : splitext (("foo.html").toList) = (("foo").toList, (".html").toList) := by rfl
example : splitext ((".bashrc").toList) = ((".bashrc").toList, []) := by rfl
example : splitext (("a/b.c/d").toList) = (("a/b.c/d").toList, []) := by rfl
example : splitext (("file.tar.gz").toList) = (("file.tar").toList, (".gz").toList) := by rfl

theorem splitext_join (p : Str) : (splitext p).1 ++ (splitext p).2 = p := by
  unfold splitext
  cases hs : splitLast '.' p with
  | none => simp
  | some q =>
    obtain ⟨pre, post⟩ := q
    have hp := (splitLast_eq_some hs).1
    cases h1 : post.contains '/' with
    | true =>
      have h1m : '/' ∈ post := by simpa using h1
      simp [h1m]
    | false =>
      have h1m : '/' ∉ post := by simpa using h1
      cases h2 : (extBase pre).any (fun c => !(c == '.')) with
      | true => simp [h1m, h2, hp]
      | false => simp [h1m, h2]

/-- `f"{name}_{counter}{ext}"` built from the original path. -/
def addSuffix (orig : Str) (k : Nat) : Str :=
  (splitext orig).1 ++ '_' :: (natToDec k ++ (splitext orig).2)

/-- The sequence of paths the `while os.path.exists` loop tries: the
original path, then `name_1.ext`, `name_2.ext`, and so on. -/
def candidate (orig : Str) : Nat → Str
  | 0 => orig
  | k + 1 => addSuffix orig (k + 1)

/-- The collision loop of `save_page`, fuelled: try candidates in order
until one is not an existing path. -/
def resolveAux (fs : List Str) (orig : Str) : Nat → Nat → Str
  | 0, k => candidate orig k
  | fuel + 1, k =>
    if candidate orig k ∈ fs then resolveAux fs orig fuel (k + 1) else candidate orig k

/-- The collision handling of `save_page` against the finite set `fs` of
existing paths. -/
def resolvePath (fs : List Str) (orig : Str) : Str := resolveAux fs orig (fs.length + 1) 0

theorem natToDec_length_pos (k : Nat) (hk : 1 ≤ k) : 1 ≤ (natToDec k).length := by
  rw [natToDec, if_neg (by omega)]
  cases hx : natToDecAux k k with
  | nil =>
    exfalso
    have := decBack_natToDecAux k k le_rfl hk
    rw [hx] at this
    simp [decBack] at this
    omega
  | cons a as => simp

theorem addSuffix_length (orig : Str) (k : Nat) :
    (addSuffix orig k).length = orig.length + 1 + (natToDec k).length := by
  have hj := congrArg List.length (splitext_join orig)
  simp only [List.length_append] at hj
  simp [addSuffix, List.length_append]
  omega

theorem candidate_inj (orig : Str) : Function.Injective (candidate orig) := by
  intro i j h
  cases i with
  | zero =>
    cases j with
    | zero => rfl
    | succ j =>
      exfalso
      have h2 := natToDec_length_pos (j + 1) (by omega)
      have hc := congrArg List.length h
      simp only [candidate] at hc
      rw [addSuffix_length] at hc
      omega
  | succ i =>
    cases j with
    | zero =>
      exfalso
      have h2 := natToDec_length_pos (i + 1) (by omega)
      have hc := congrArg List.length h
      simp only [candidate] at hc
      rw [addSuffix_length] at hc
      omega
    | succ j =>
      simp only [candidate, addSuffix] at h
      have h1 := List.append_cancel_left h
      injection h1 with hh ht
      have h3 := List.append_cancel_right ht
      have := natToDec_inj (by omega) (by omega) h3
      omega

theorem exists_free_candidate (fs : List Str) (orig : Str) :
    ∃ j, j ≤ fs.length ∧ candidate orig j ∉ fs := by
  by_contra hc
  push_neg at hc
  have hcard : ((Finset.range (fs.length + 1)).image (candidate orig)).card = fs.length + 1 := by
    rw [Finset.card_image_of_injective _ (candidate_inj orig), Finset.card_range]
  have hsub : (Finset.range (fs.length + 1)).image (candidate orig) ⊆ fs.toFinset := by
    intro x hx
    obtain ⟨j, hj, hje⟩ := Finset.mem_image.mp hx
    rw [List.mem_toFinset, ← hje]
    have hjr := Finset.mem_range.mp hj
    exact hc j (by omega)
  have h1 := Finset.card_le_card hsub
  have h2 := fs.toFinset_card_le
  omega

theorem resolveAux_not_mem (fs : List Str) (orig : Str) :
    ∀ fuel k, (∃ j, k ≤ j ∧ j < k + fuel ∧ candidate orig j ∉ fs) →
      resolveAux fs orig fuel k ∉ fs := by
  intro fuel
  induction fuel with
  | zero =>
    intro k h
    obtain ⟨j, h1, h2, _⟩ := h
    omega
  | succ fuel ih =>
    intro k h
    obtain ⟨j, h1, h2, h3⟩ := h
    by_cases hm : candidate orig k ∈ fs
    · rw [resolveAux, if_pos hm]
      apply ih
      have hjk : j ≠ k := fun he => h3 (he ▸ hm)
      exact ⟨j, by omega, by omega, h3⟩
    · rw [resolveAux, if_neg hm]
      exact hm

/-- Claim C7: the collision loop of `save_page` never returns an existing
path — for every finite set of existing paths and every computed path, the
resolved path is fresh; concretely, saving `foo.html` against an empty
store keeps the name, and saving it again once `foo.html` exists yields
`foo_1.html`, so two distinct URLs mapping to the same nominal filename get
two distinct, non-overwriting paths. -/
theorem claim_C7_collision :
    (∀ (fs : List Str) (orig : Str), resolvePath fs orig ∉ fs) ∧
      resolvePath [] (("foo.html").toList) = ("foo.html").toList ∧
      resolvePath [("foo.html").toList] (("foo.html").toList) = ("foo_1.html").toList := by
  refine ⟨?_, by rfl, by rfl⟩
  intro fs orig
  show resolveAux fs orig (fs.length + 1) 0 ∉ fs
  obtain ⟨j, h1, h2⟩ := exists_free_candidate fs orig
  have hj2 : j < 0 + (fs.length + 1) := by omega
  exact resolveAux_not_mem fs orig (fs.length + 1) 0 ⟨j, Nat.zero_le j, hj2, h2⟩

/-! ### Claim C8: `normalize_url` — supporting lemmas -/

theorem isSchemeChar_toNat {c : Char} (h : isSchemeChar c = true) :
    43 ≤ c.toNat ∧ c.toNat ≤ 122 := by
  simp only [isSchemeChar, Bool.or_eq_true, Bool.and_eq_true, decide_eq_true_eq,
    beq_iff_eq] at h
  rcases h with ((((h | h) | h) | h) | h) | h
  · omega
  · omega
  · omega
  · rw [h]; exact ⟨by decide, by decide⟩
  · rw [h]; exact ⟨by decide, by decide⟩
  · rw [h]; exact ⟨by decide, by decide⟩

theorem isSchemeChar_not_strippable {c : Char} (h : isSchemeChar c = true) :
    strippable c = false := by
  have := isSchemeChar_toNat h
  simp only [strippable, decide_eq_false_iff_not]
  omega

theorem isSchemeChar_not_unsafe {c : Char} (h : isSchemeChar c = true) :
    unsafeChar c = false := by
  have h2 := isSchemeChar_toNat h
  simp only [unsafeChar, Bool.or_eq_false_iff, beq_eq_false_iff_ne, ne_eq]
  refine ⟨⟨?_, ?_⟩, ?_⟩ <;> intro he <;> rw [he] at h2 <;> simp at h2

theorem isSchemeChar_ne {c : Char} (h : isSchemeChar c = true) :
    c ≠ ':' ∧ c ≠ '/' ∧ c ≠ '?' ∧ c ≠ '#' ∧ c ≠ ';' := by
  have h2 := isSchemeChar_toNat h
  refine ⟨?_, ?_, ?_, ?_, ?_⟩ <;> intro he <;> rw [he] at h <;> exact absurd h (by decide)

theorem unsafeChar_false_of_not_strippable {c : Char} (h : strippable c = false) :
    unsafeChar c = false := by
  simp only [strippable, decide_eq_false_iff_not] at h
  simp only [unsafeChar, Bool.or_eq_false_iff, beq_eq_false_iff_ne, ne_eq]
  refine ⟨⟨?_, ?_⟩, ?_⟩ <;> intro he <;> rw [he] at h <;> exact h (by decide)

/-! Facts about `asciiLower`. -/

theorem asciiLower_valid {c : Char} (h : 65 ≤ c.toNat ∧ c.toNat ≤ 90) :
    (asciiLower c).toNat = c.toNat + 32 := by
  rw [asciiLower, if_pos (by simp [h.1, h.2])]
  have hv : Nat.isValidChar (c.toNat + 32) := Or.inl (by omega)
  simp only [Char.ofNat]
  rw [dif_pos hv]
  rfl

theorem asciiLower_fix {c : Char} (h : ¬(65 ≤ c.toNat ∧ c.toNat ≤ 90)) :
    asciiLower c = c := by
  rw [asciiLower, if_neg]
  simp only [Bool.and_eq_true, decide_eq_true_eq]
  omega

theorem asciiLower_scheme {c : Char} (h : isSchemeChar c = true) :
    isSchemeChar (asciiLower c) = true ∧ asciiLower (asciiLower c) = asciiLower c := by
  by_cases hc : 65 ≤ c.toNat ∧ c.toNat ≤ 90
  · have h1 := asciiLower_valid hc
    have h2 : isSchemeChar (asciiLower c) = true := by
      simp only [isSchemeChar, h1, Bool.or_eq_true, Bool.and_eq_true, decide_eq_true_eq]
      omega
    refine ⟨h2, asciiLower_fix ?_⟩
    rw [h1]
    omega
  · rw [asciiLower_fix hc]
    exact ⟨h, asciiLower_fix hc⟩

theorem asciiLower_not_unsafe {c : Char} (h : unsafeChar c = false) :
    unsafeChar (asciiLower c) = false := by
  by_cases hc : 65 ≤ c.toNat ∧ c.toNat ≤ 90
  · have h1 := asciiLower_valid hc
    simp only [unsafeChar, Bool.or_eq_false_iff, beq_eq_false_iff_ne, ne_eq]
    refine ⟨⟨?_, ?_⟩, ?_⟩ <;> intro he <;> rw [he] at h1 <;> simp at h1
  · rw [asciiLower_fix hc]; exact h

/-! List helper lemmas for the round-trip proof. -/

theorem takeWhile_append_all {p : Char → Bool} {a b : Str} (h : ∀ c ∈ a, p c = true) :
    (a ++ b).takeWhile p = a ++ b.takeWhile p := by
  induction a with
  | nil => simp
  | cons x xs ih =>
    have hx : p x = true := h x (List.mem_cons_self x xs)
    simp only [List.cons_append, List.takeWhile_cons, hx, if_true]
    rw [ih (fun c hc => h c (List.mem_cons_of_mem x hc))]

theorem dropWhile_append_all {p : Char → Bool} {a b : Str} (h : ∀ c ∈ a, p c = true) :
    (a ++ b).dropWhile p = b.dropWhile p := by
  induction a with
  | nil => simp
  | cons x xs ih =>
    have hx : p x = true := h x (List.mem_cons_self x xs)
    simp only [List.cons_append, List.dropWhile_cons, hx, if_true]
    exact ih (fun c hc => h c (List.mem_cons_of_mem x hc))

theorem mem_takeWhile_pred {p : Char → Bool} : ∀ {l : Str} {c : Char},
    c ∈ l.takeWhile p → p c = true := by
  intro l
  induction l with
  | nil => intro c h; simp at h
  | cons x xs ih =>
    intro c h
    rw [List.takeWhile_cons] at h
    by_cases hx : p x = true
    · rw [if_pos hx] at h
      rcases List.mem_cons.mp h with h1 | h1
      · rw [h1]; exact hx
      · exact ih h1
    · rw [if_neg hx] at h
      simp at h

theorem takeWhile_append_dropWhile_my (p : Char → Bool) (l : Str) :
    l.takeWhile p ++ l.dropWhile p = l := by
  induction l with
  | nil => rfl
  | cons x xs ih =>
    rw [List.takeWhile_cons, List.dropWhile_cons]
    by_cases hx : p x = true
    · rw [if_pos hx, if_pos hx]
      simp [ih]
    · rw [if_neg hx, if_neg hx]
      simp

theorem dropWhile_head {p : Char → Bool} : ∀ {l : Str},
    l.dropWhile p = [] ∨ ∃ d, (l.dropWhile p).head? = some d ∧ p d = false := by
  intro l
  induction l with
  | nil => exact Or.inl rfl
  | cons x xs ih =>
    rw [List.dropWhile_cons]
    by_cases hx : p x = true
    · rw [if_pos hx]; exact ih
    · rw [if_neg hx]
      exact Or.inr ⟨x, rfl, by revert hx; cases p x <;> simp⟩

theorem take_two_shape {l : Str} (h : l.take 2 = ['/', '/']) :
    l = '/' :: '/' :: l.drop 2 := by
  cases l with
  | nil => simp at h
  | cons a t =>
    cases t with
    | nil => simp at h
    | cons b t2 =>
      simp only [List.take] at h
      injection h with h1 h2
      injection h2 with h2 h3
      rw [h1, h2]
      rfl

/-! Specification lemmas for the parsing steps. -/

/-- `splitScheme u` found no scheme. -/
def noSpuriousScheme (u : Str) : Prop :=
  ∀ a b, splitFirst ':' u = some (a, b) → a = [] ∨ a.all isSchemeChar = false

theorem splitScheme_spec {u s0 u1 : Str} (h : splitScheme u = (s0, u1)) :
    (s0 = [] ∧ u1 = u ∧ noSpuriousScheme u) ∨
      (∃ pre, u = pre ++ ':' :: u1 ∧ pre ≠ [] ∧ pre.all isSchemeChar = true ∧
        s0 = pre.map asciiLower) := by
  rw [splitScheme] at h
  cases hsp : splitFirst ':' u with
  | none =>
    rw [hsp] at h
    injection h with h1 h2
    exact Or.inl ⟨h1.symm, h2.symm, fun a b hab => by rw [hab] at hsp; cases hsp⟩
  | some q =>
    obtain ⟨pre, post⟩ := q
    rw [hsp] at h
    dsimp only at h
    by_cases hc : (!pre.isEmpty && pre.all isSchemeChar) = true
    · rw [if_pos hc] at h
      injection h with h1 h2
      simp only [Bool.and_eq_true, Bool.not_eq_true', List.isEmpty_eq_false] at hc
      refine Or.inr ⟨pre, ?_, hc.1, hc.2, h1.symm⟩
      rw [← h2]
      exact (splitFirst_eq_some hsp).1
    · rw [if_neg hc] at h
      injection h with h1 h2
      refine Or.inl ⟨h1.symm, h2.symm, fun a b hab => ?_⟩
      rw [hab] at hsp
      injection hsp with he
      injection he with he1 he2
      simp only [Bool.and_eq_true, Bool.not_eq_true', List.isEmpty_eq_false, not_and_or] at hc
      rcases hc with hc | hc
      · left
        rw [he1]
        simpa using hc
      · right
        rw [he1]
        simpa using hc

theorem splitScheme_intro {s rest : Str} (hne : s ≠ [])
    (hall : ∀ c ∈ s, isSchemeChar c = true) (hfix : ∀ c ∈ s, asciiLower c = c) :
    splitScheme (s ++ ':' :: rest) = (s, rest) := by
  have hcol : ':' ∉ s := fun hm => ((isSchemeChar_ne (hall _ hm)).1 rfl)
  rw [splitScheme, splitFirst_append hcol]
  dsimp only
  have hc : (!s.isEmpty && s.all isSchemeChar) = true := by
    simp only [Bool.and_eq_true, Bool.not_eq_true', List.isEmpty_eq_false]
    exact ⟨hne, List.all_eq_true.mpr hall⟩
  rw [if_pos hc]
  have : s.map asciiLower = s := by
    calc s.map asciiLower = s.map id := List.map_congr_left hfix
    _ = s := List.map_id s
  rw [this]

theorem noSpuriousScheme_of_head {u : Str} {d : Char} (hd : u.head? = some d)
    (hs : isSchemeChar d = false) : noSpuriousScheme u := by
  intro a b hab
  obtain ⟨he, hna⟩ := splitFirst_eq_some hab
  cases a with
  | nil => exact Or.inl rfl
  | cons x xs =>
    right
    have hx : x = d := by
      rw [he] at hd
      simp only [List.cons_append, List.head?_cons, Option.some.injEq] at hd
      exact hd
    simp [List.all_cons, hx, hs]

theorem splitScheme_none_of {u : Str} (h : noSpuriousScheme u) : splitScheme u = ([], u) := by
  rw [splitScheme]
  cases hsp : splitFirst ':' u with
  | none => rfl
  | some q =>
    obtain ⟨pre, post⟩ := q
    dsimp only
    rcases h pre post hsp with h1 | h1
    · rw [if_neg]
      simp [h1]
    · rw [if_neg]
      simp [h1]

theorem bool_eq_of_not_or {x y : Bool} (h : ¬((x && !y) || (y && !x)) = true) : x = y := by
  cases x <;> cases y <;> simp_all

theorem bracket_ok {n : Str} (hbr : n.contains '[' = n.contains ']') :
    ((n.contains '[' && !n.contains ']') || (n.contains ']' && !n.contains '[')) = false := by
  rw [← hbr]
  cases n.contains '[' <;> rfl

theorem splitNetloc_spec {u1 n u2 : Str} (h : splitNetloc u1 = Except.ok (n, u2)) :
    (u1 = '/' :: '/' :: (n ++ u2) ∧ (∀ c ∈ n, netlocDelim c = false) ∧
      (n.contains '[' = n.contains ']') ∧
      (u2 = [] ∨ ∃ d, u2.head? = some d ∧ netlocDelim d = true)) ∨
    (n = [] ∧ u2 = u1 ∧ u1.take 2 ≠ ['/', '/']) := by
  rw [splitNetloc] at h
  by_cases ht : u1.take 2 = ['/', '/']
  · rw [if_pos ht] at h
    by_cases hb : (((u1.drop 2).takeWhile (fun c => !netlocDelim c)).contains '[' &&
        !((u1.drop 2).takeWhile (fun c => !netlocDelim c)).contains ']' ||
        ((u1.drop 2).takeWhile (fun c => !netlocDelim c)).contains ']' &&
        !((u1.drop 2).takeWhile (fun c => !netlocDelim c)).contains '[') = true
    · rw [if_pos hb] at h
      cases h
    · rw [if_neg hb] at h
      injection h with h2
      injection h2 with hn hu
      left
      refine ⟨?_, ?_, ?_, ?_⟩
      · rw [← hn, ← hu]
        rw [takeWhile_append_dropWhile_my]
        exact take_two_shape ht
      · intro c hc
        rw [← hn] at hc
        have := mem_takeWhile_pred hc
        revert this
        cases netlocDelim c <;> simp
      · rw [← hn]
        exact bool_eq_of_not_or hb
      · rw [← hu]
        rcases dropWhile_head (p := fun c => !netlocDelim c) (l := u1.drop 2) with h1 | ⟨d, h1, h2⟩
        · exact Or.inl h1
        · right
          exact ⟨d, h1, by revert h2; cases netlocDelim d <;> simp⟩
  · rw [if_neg ht] at h
    injection h with h2
    injection h2 with hn hu
    exact Or.inr ⟨hn.symm, hu.symm, ht⟩

theorem splitNetloc_intro {n rest : Str} (hn : ∀ c ∈ n, netlocDelim c = false)
    (hbr : n.contains '[' = n.contains ']')
    (hrest : rest = [] ∨ ∃ d, rest.head? = some d ∧ netlocDelim d = true) :
    splitNetloc ('/' :: '/' :: (n ++ rest)) = Except.ok (n, rest) := by
  have hpred : ∀ c ∈ n, (fun c => !netlocDelim c) c = true := by
    intro c hc
    simp [hn c hc]
  have htw : (n ++ rest).takeWhile (fun c => !netlocDelim c) = n := by
    rw [takeWhile_append_all hpred]
    rcases hrest with h1 | ⟨d, h1, h2⟩
    · rw [h1]; simp
    · cases rest with
      | nil => simp
      | cons x t =>
        simp only [List.head?_cons, Option.some.injEq] at h1
        rw [List.takeWhile_cons, h1, if_neg (by simp [h2]), List.append_nil]
  have hdw : (n ++ rest).dropWhile (fun c => !netlocDelim c) = rest := by
    rw [dropWhile_append_all hpred]
    rcases hrest with h1 | ⟨d, h1, h2⟩
    · rw [h1]; rfl
    · cases rest with
      | nil => rfl
      | cons x t =>
        simp only [List.head?_cons, Option.some.injEq] at h1
        rw [List.dropWhile_cons, h1, if_neg (by simp [h2])]
  rw [splitNetloc, if_pos (by rfl)]
  simp only [List.drop_succ_cons, List.drop_zero, htw, hdw]
  rw [if_neg (by intro hq; rw [bracket_ok hbr] at hq; cases hq)]

theorem splitNetloc_none_intro {u : Str} (h : u.take 2 ≠ ['/', '/']) :
    splitNetloc u = Except.ok ([], u) := by
  rw [splitNetloc, if_neg h]

theorem splitFragment_spec {u2 u3 f : Str} (h : splitFragment u2 = (u3, f)) :
    '#' ∉ u3 ∧ (u2 = u3 ++ '#' :: f ∨ (u2 = u3 ∧ f = [])) := by
  rw [splitFragment] at h
  cases hs : splitFirst '#' u2 with
  | none =>
    rw [hs] at h
    injection h with h1 h2
    exact ⟨h1 ▸ splitFirst_eq_none hs, Or.inr ⟨h1, h2.symm⟩⟩
  | some q =>
    obtain ⟨a, b⟩ := q
    rw [hs] at h
    injection h with h1 h2
    obtain ⟨he, hna⟩ := splitFirst_eq_some hs
    exact ⟨h1 ▸ hna, Or.inl (by rw [← h1, ← h2]; exact he)⟩

theorem splitFragment_intro {u : Str} (h : '#' ∉ u) : splitFragment u = (u, []) := by
  rw [splitFragment, splitFirst_of_not_mem h]

theorem splitQuery_spec {u3 u4 q : Str} (h : splitQuery u3 = (u4, q)) :
    '?' ∉ u4 ∧ (u3 = u4 ++ '?' :: q ∨ (u3 = u4 ∧ q = [])) := by
  rw [splitQuery] at h
  cases hs : splitFirst '?' u3 with
  | none =>
    rw [hs] at h
    injection h with h1 h2
    exact ⟨h1 ▸ splitFirst_eq_none hs, Or.inr ⟨h1, h2.symm⟩⟩
  | some p =>
    obtain ⟨a, b⟩ := p
    rw [hs] at h
    injection h with h1 h2
    obtain ⟨he, hna⟩ := splitFirst_eq_some hs
    exact ⟨h1 ▸ hna, Or.inl (by rw [← h1, ← h2]; exact he)⟩

theorem splitQuery_intro {a q : Str} (h : '?' ∉ a) : splitQuery (a ++ '?' :: q) = (a, q) := by
  rw [splitQuery, splitFirst_append h]

theorem splitQuery_none_intro {u : Str} (h : '?' ∉ u) : splitQuery u = (u, []) := by
  rw [splitQuery, splitFirst_of_not_mem h]

theorem extBase_some {p pre post : Str} (h : splitLast '/' p = some (pre, post)) :
    extBase p = post := by
  rw [extBase, h]

theorem extBase_none {p : Str} (h : splitLast '/' p = none) : extBase p = p := by
  rw [extBase, h]

theorem splitParams_spec {u4 p par : Str} (h : splitParams u4 = (p, par)) :
    '/' ∉ par ∧ ';' ∉ extBase p ∧
      (joinParams p par = u4 ∨ (par = [] ∧ u4 = p ++ [';'])) := by
  rw [splitParams] at h
  cases hsl : splitLast '/' u4 with
  | some q =>
    obtain ⟨pre, post⟩ := q
    rw [hsl] at h
    dsimp only at h
    obtain ⟨hu4, hpost⟩ := splitLast_eq_some hsl
    cases hsf : splitFirst ';' post with
    | some q2 =>
      obtain ⟨a, b⟩ := q2
      rw [hsf] at h
      injection h with h1 h2
      obtain ⟨hpe, hna⟩ := splitFirst_eq_some hsf
      have hslA : '/' ∉ a := fun hm => hpost (by rw [hpe]; exact List.mem_append_left _ hm)
      have hslB : '/' ∉ b := fun hm => hpost (by
        rw [hpe]
        exact List.mem_append_right _ (List.mem_cons_of_mem _ hm))
      have hext : extBase p = a := by
        rw [← h1]
        exact extBase_some (splitLast_append hslA)
      refine ⟨h2 ▸ hslB, hext ▸ hna, ?_⟩
      cases hb : b with
      | nil =>
        right
        refine ⟨by rw [← h2, hb], ?_⟩
        rw [← h1, hu4, hpe, hb]
        simp
      | cons x t =>
        left
        rw [joinParams, if_neg (by rw [← h2, hb]; simp), ← h1, ← h2, hu4, hpe]
        simp
    | none =>
      rw [hsf] at h
      injection h with h1 h2
      have hsemi : ';' ∉ post := splitFirst_eq_none hsf
      refine ⟨h2 ▸ (List.not_mem_nil '/'), ?_, ?_⟩
      · rw [← h1]
        rw [extBase_some hsl]
        exact hsemi
      · left
        rw [joinParams, if_pos h2.symm, h1]
  | none =>
    rw [hsl] at h
    dsimp only at h
    have hns : '/' ∉ u4 := splitLast_eq_none hsl
    cases hsf : splitFirst ';' u4 with
    | some q2 =>
      obtain ⟨a, b⟩ := q2
      rw [hsf] at h
      injection h with h1 h2
      obtain ⟨hpe, hna⟩ := splitFirst_eq_some hsf
      have hslA : '/' ∉ a := fun hm => hns (by rw [hpe]; exact List.mem_append_left _ hm)
      have hslB : '/' ∉ b := fun hm => hns (by
        rw [hpe]
        exact List.mem_append_right _ (List.mem_cons_of_mem _ hm))
      have hext : extBase p = p := by
        rw [← h1]
        exact extBase_none (splitLast_of_not_mem hslA)
      refine ⟨h2 ▸ hslB, by rw [hext, ← h1]; exact hna, ?_⟩
      cases hb : b with
      | nil =>
        right
        refine ⟨by rw [← h2, hb], ?_⟩
        rw [← h1, hpe, hb]
      | cons x t =>
        left
        rw [joinParams, if_neg (by rw [← h2, hb]; simp), ← h1, ← h2, hpe]
    | none =>
      rw [hsf] at h
      injection h with h1 h2
      have hsemi : ';' ∉ u4 := splitFirst_eq_none hsf
      refine ⟨h2 ▸ (List.not_mem_nil '/'), ?_, ?_⟩
      · rw [← h1, extBase_none hsl]
        exact hsemi
      · left
        rw [joinParams, if_pos h2.symm, h1]

theorem splitParams_join {p par : Str} (hpar : '/' ∉ par) (hsemi : ';' ∉ extBase p) :
    splitParams (joinParams p par) = (p, par) := by
  cases hp : par with
  | nil =>
    rw [joinParams, if_pos rfl]
    rw [splitParams]
    cases hsl : splitLast '/' p with
    | some q =>
      obtain ⟨pre, post⟩ := q
      dsimp only
      rw [extBase_some hsl] at hsemi
      rw [splitFirst_of_not_mem hsemi]
    | none =>
      dsimp only
      rw [extBase_none hsl] at hsemi
      rw [splitFirst_of_not_mem hsemi]
  | cons x t =>
    rw [← hp]
    have hpar_ne : par ≠ [] := by rw [hp]; simp
    rw [joinParams, if_neg hpar_ne]
    rw [splitParams]
    cases hsl : splitLast '/' p with
    | some q =>
      obtain ⟨pre, post⟩ := q
      obtain ⟨hpd, hpost⟩ := splitLast_eq_some hsl
      rw [extBase_some hsl] at hsemi
      have hnos : '/' ∉ post ++ ';' :: par := by
        intro hm
        rcases List.mem_append.mp hm with h1 | h1
        · exact hpost h1
        · rcases List.mem_cons.mp h1 with h1 | h1
          · cases h1
          · exact hpar h1
      have hre : p ++ ';' :: par = pre ++ '/' :: (post ++ ';' :: par) := by
        rw [hpd]
        simp
      rw [hre, splitLast_append hnos]
      dsimp only
      rw [splitFirst_append hsemi]
      dsimp only
      rw [← hpd]
    | none =>
      have hnp : '/' ∉ p := splitLast_eq_none hsl
      rw [extBase_none hsl] at hsemi
      have hnos : '/' ∉ p ++ ';' :: par := by
        intro hm
        rcases List.mem_append.mp hm with h1 | h1
        · exact hnp h1
        · rcases List.mem_cons.mp h1 with h1 | h1
          · cases h1
          · exact hpar h1
      rw [splitLast_of_not_mem hnos]
      dsimp only
      rw [splitFirst_append hsemi]


theorem cleanUrl_no_unsafe (u : Str) : ∀ c ∈ cleanUrl u, unsafeChar c = false := by
  intro c hc
  rw [cleanUrl] at hc
  have := List.mem_filter.mp hc
  simpa using this.2

theorem unsafe_strippable {c : Char} (h : unsafeChar c = true) : strippable c = true := by
  simp only [unsafeChar, Bool.or_eq_true, beq_iff_eq] at h
  rcases h with (h | h) | h <;> rw [h] <;> decide

theorem cleanUrl_head (u : Str) : ∀ c, (cleanUrl u).head? = some c → strippable c = false := by
  intro c hc
  rw [cleanUrl] at hc
  rcases dropWhile_head (p := strippable) (l := u) with h1 | ⟨d, h1, h2⟩
  · rw [h1] at hc
    cases hc
  · cases hdw : u.dropWhile strippable with
    | nil => rw [hdw] at h1; cases h1
    | cons x t =>
      rw [hdw] at h1 hc
      simp only [List.head?_cons, Option.some.injEq] at h1
      have hxd : x = d := h1
      have hxu : unsafeChar x = false := by
        cases hu : unsafeChar x with
        | false => rfl
        | true =>
          have := unsafe_strippable hu
          rw [hxd, h2] at this
          cases this
      rw [List.filter_cons, if_pos (by simp [hxu])] at hc
      simp only [List.head?_cons, Option.some.injEq] at hc
      rw [← hc, hxd]
      exact h2

theorem cleanUrl_eq_self {w : Str} (hclean : ∀ c ∈ w, unsafeChar c = false)
    (hhead : ∀ c, w.head? = some c → strippable c = false) :
    cleanUrl w = w := by
  rw [cleanUrl]
  have h1 : w.dropWhile strippable = w := by
    cases w with
    | nil => rfl
    | cons x t =>
      rw [List.dropWhile_cons, if_neg (by rw [hhead x rfl]; simp)]
  rw [h1]
  exact List.filter_eq_self.mpr (fun c hc => by simp [hclean c hc])

theorem nss_nil : noSpuriousScheme [] := by
  intro a b hab
  simp [splitFirst] at hab

theorem nss_extend {u J t : Str} (hnss : noSpuriousScheme u) (hpre : ∃ w, J ++ w = u)
    (ht : ∀ d, t.head? = some d → isSchemeChar d = false ∧ d ≠ ':') :
    noSpuriousScheme (J ++ t) := by
  intro a b hab
  obtain ⟨w, hw⟩ := hpre
  by_cases hc : ':' ∈ J
  · cases hsJ : splitFirst ':' J with
    | none => exact absurd hc (splitFirst_eq_none hsJ)
    | some q =>
      obtain ⟨x, y⟩ := q
      obtain ⟨hJ, hnx⟩ := splitFirst_eq_some hsJ
      have h1 : splitFirst ':' (J ++ t) = some (x, y ++ t) := by
        rw [hJ, List.append_assoc, List.cons_append]
        exact splitFirst_append hnx
      rw [hab] at h1
      injection h1 with h1
      injection h1 with h1a h1b
      have h2 : splitFirst ':' u = some (x, y ++ w) := by
        rw [← hw, hJ, List.append_assoc, List.cons_append]
        exact splitFirst_append hnx
      rcases hnss x (y ++ w) h2 with h3 | h3
      · exact Or.inl (h1a ▸ h3)
      · exact Or.inr (h1a ▸ h3)
  · obtain ⟨he, hna⟩ := splitFirst_eq_some hab
    rcases List.append_eq_append_iff.mp he with ⟨k, hk1, hk2⟩ | ⟨k, hk1, hk2⟩
    · -- a = J ++ k, t = k ++ ':' :: b
      cases k with
      | nil =>
        have hth : t.head? = some ':' := by rw [hk2]; rfl
        exact absurd rfl (ht ':' hth).2
      | cons d t2 =>
        right
        have hda : d ∈ a := by rw [hk1]; simp
        have hth : t.head? = some d := by rw [hk2]; rfl
        have hds : isSchemeChar d = false := (ht d hth).1
        cases ha : a.all isSchemeChar with
        | false => rfl
        | true =>
          have := List.all_eq_true.mp ha d hda
          rw [hds] at this
          cases this
    · -- J = a ++ k, ':' :: b = k ++ t
      cases k with
      | nil =>
        have ht2 : t = ':' :: b := by simpa using hk2.symm
        have hth : t.head? = some ':' := by rw [ht2]; rfl
        exact absurd rfl (ht ':' hth).2
      | cons d t2 =>
        have hd : d = ':' := by
          have := congrArg List.head? hk2
          simp at this
          exact this.symm
        exfalso
        apply hc
        rw [hk1, hd]
        simp

theorem splitFragment_nil : splitFragment [] = ([], []) := rfl

theorem splitQuery_nil : splitQuery [] = ([], []) := rfl

theorem splitParams_nil : splitParams [] = ([], []) := rfl

theorem splitFragment_cons_hash (t : Str) : splitFragment ('#' :: t) = ([], t) := by
  rw [splitFragment]
  simp [splitFirst]

theorem splitQuery_cons_q (t : Str) : splitQuery ('?' :: t) = ([], t) := by
  rw [splitQuery]
  simp [splitFirst]

theorem splitFragment_head {u u3 f : Str} {d : Char} (h : splitFragment u = (u3, f))
    (hd : u.head? = some d) (hne : d ≠ '#') : u3.head? = some d := by
  cases u with
  | nil => cases hd
  | cons x t =>
    simp only [List.head?_cons, Option.some.injEq] at hd
    rw [splitFragment] at h
    rw [splitFirst] at h
    rw [if_neg (by rw [hd]; exact hne)] at h
    cases hsf : splitFirst '#' t with
    | none =>
      rw [hsf] at h
      simp only [Option.map_none'] at h
      injection h with h1 h2
      rw [← h1, List.head?_cons, hd]
    | some q2 =>
      obtain ⟨a2, b2⟩ := q2
      rw [hsf] at h
      simp only [Option.map_some'] at h
      injection h with h1 h2
      rw [← h1, List.head?_cons, hd]

theorem splitQuery_head {u u4 q : Str} {d : Char} (h : splitQuery u = (u4, q))
    (hd : u.head? = some d) (hne : d ≠ '?') : u4.head? = some d := by
  cases u with
  | nil => cases hd
  | cons x t =>
    simp only [List.head?_cons, Option.some.injEq] at hd
    rw [splitQuery] at h
    rw [splitFirst] at h
    rw [if_neg (by rw [hd]; exact hne)] at h
    cases hsf : splitFirst '?' t with
    | none =>
      rw [hsf] at h
      simp only [Option.map_none'] at h
      injection h with h1 h2
      rw [← h1, List.head?_cons, hd]
    | some q2 =>
      obtain ⟨a2, b2⟩ := q2
      rw [hsf] at h
      simp only [Option.map_some'] at h
      injection h with h1 h2
      rw [← h1, List.head?_cons, hd]

theorem chain_head {u2 u3 f u4 q p par : Str}
    (h3 : splitFragment u2 = (u3, f)) (h4 : splitQuery u3 = (u4, q))
    (h5 : splitParams u4 = (p, par))
    (hu2 : u2 = [] ∨ ∃ d, u2.head? = some d ∧ netlocDelim d = true) :
    joinParams p par = [] ∨ (joinParams p par).head? = some '/' := by
  have hu4 : u4 = [] ∨ u4.head? = some '/' := by
    rcases hu2 with h1 | ⟨d, hd, hdel⟩
    · subst h1
      rw [splitFragment_nil] at h3
      injection h3 with h3a h3b
      rw [← h3a, splitQuery_nil] at h4
      injection h4 with h4a h4b
      exact Or.inl h4a.symm
    · have hd3 : (d = '/' ∨ d = '?') ∨ d = '#' := by
        simpa [netlocDelim] using hdel
      rcases hd3 with (hd3 | hd3) | hd3
      · subst hd3
        have hh3 := splitFragment_head h3 hd (by decide)
        have hh4 := splitQuery_head h4 hh3 (by decide)
        exact Or.inr hh4
      · subst hd3
        have hh3 := splitFragment_head h3 hd (by decide)
        cases u3 with
        | nil => cases hh3
        | cons x t =>
          simp only [List.head?_cons, Option.some.injEq] at hh3
          rw [hh3, splitQuery_cons_q] at h4
          injection h4 with h4a h4b
          exact Or.inl h4a.symm
      · subst hd3
        cases u2 with
        | nil => cases hd
        | cons x t =>
          simp only [List.head?_cons, Option.some.injEq] at hd
          rw [hd, splitFragment_cons_hash] at h3
          injection h3 with h3a h3b
          rw [← h3a, splitQuery_nil] at h4
          injection h4 with h4a h4b
          exact Or.inl h4a.symm
  rcases hu4 with h1 | h1
  · subst h1
    rw [splitParams_nil] at h5
    injection h5 with h5a h5b
    left
    rw [joinParams, ← h5a, ← h5b, if_pos rfl]
  · obtain ⟨hp1, hp2, hp3⟩ := splitParams_spec h5
    rcases hp3 with hj | ⟨hpnil, hu4e⟩
    · right
      rw [hj]
      exact h1
    · cases hpc : p with
      | nil =>
        exfalso
        rw [hu4e, hpc] at h1
        simp at h1
      | cons a t =>
        right
        rw [joinParams, if_pos hpnil]
        rw [hu4e, hpc] at h1
        exact h1

/-- The query part as it appears in the serialized URL. -/
def optQuery (q : Str) : Str := if q = [] then [] else '?' :: q

theorem mem_joinParams_left {p par : Str} {c : Char} (h : c ∈ p) : c ∈ joinParams p par := by
  rw [joinParams]
  by_cases hp : par = []
  · rw [if_pos hp]; exact h
  · rw [if_neg hp]; exact List.mem_append_left _ h

theorem mem_joinParams_right {p par : Str} {c : Char} (h : c ∈ par) : c ∈ joinParams p par := by
  rw [joinParams]
  by_cases hp : par = []
  · rw [if_pos hp]; rw [hp] at h; cases h
  · rw [if_neg hp]; exact List.mem_append_right _ (List.mem_cons_of_mem _ h)

/-- Invariants that hold of the components produced by `urlparse`, and that
suffice for the re-parse of the serialized form to recover them exactly. -/
structure UrlWF (r : UrlParts) : Prop where
  hs1 : ∀ c ∈ r.scheme, isSchemeChar c = true
  hs2 : ∀ c ∈ r.scheme, asciiLower c = c
  hn : ∀ c ∈ r.netloc, netlocDelim c = false
  hbr : r.netloc.contains '[' = r.netloc.contains ']'
  hcln : ∀ c, c ∈ r.netloc ∨ c ∈ r.path ∨ c ∈ r.params ∨ c ∈ r.query → unsafeChar c = false
  hpF : '#' ∉ r.path ∧ '?' ∉ r.path
  hparF : '#' ∉ r.params ∧ '?' ∉ r.params
  hqF : '#' ∉ r.query
  hparS : '/' ∉ r.params ∧ ';' ∉ extBase r.path
  hslash : r.netloc ≠ [] →
    joinParams r.path r.params = [] ∨ (joinParams r.path r.params).head? = some '/'
  hnosch : r.scheme = [] → r.netloc = [] →
    noSpuriousScheme (joinParams r.path r.params ++ optQuery r.query)
  hhead : r.scheme = [] → r.netloc = [] → ∀ c,
    (joinParams r.path r.params ++ optQuery r.query).head? = some c → strippable c = false

theorem parse_wf {url : Str} {r : UrlParts} (h : urlparse url = Except.ok r) : UrlWF r := by
  rw [urlparse] at h
  cases hss : splitScheme (cleanUrl url) with
  | mk s0 u1 =>
  rw [hss] at h
  dsimp only at h
  cases hsn : splitNetloc u1 with
  | error e =>
    rw [hsn] at h
    exact absurd h (by simp [bind, Except.bind])
  | ok x =>
    obtain ⟨n, u2⟩ := x
    rw [hsn] at h
    simp only [bind, Except.bind] at h
    cases hsf : splitFragment u2 with
    | mk u3 f =>
    rw [hsf] at h
    dsimp only at h
    cases hq : splitQuery u3 with
    | mk u4 q =>
    rw [hq] at h
    dsimp only at h
    cases hp : splitParams u4 with
    | mk p par =>
    rw [hp] at h
    dsimp only at h
    injection h with h
    subst h
    obtain hscheme := splitScheme_spec hss
    obtain hnet := splitNetloc_spec hsn
    obtain ⟨hf3, hf2⟩ := splitFragment_spec hsf
    obtain ⟨hq3, hq2⟩ := splitQuery_spec hq
    obtain ⟨hp1, hp2, hp3⟩ := splitParams_spec hp
    have hmem1 : ∀ c ∈ u1, c ∈ cleanUrl url := by
      rcases hscheme with ⟨_, he, _⟩ | ⟨pre, he, _, _, _⟩
      · intro c hc; rw [← he]; exact hc
      · intro c hc; rw [he]; exact List.mem_append_right _ (List.mem_cons_of_mem _ hc)
    have hmemN : ∀ c ∈ n, c ∈ u1 := by
      rcases hnet with ⟨he, _, _, _⟩ | ⟨hn0, _, _⟩
      · intro c hc
        rw [he]
        exact List.mem_cons_of_mem _ (List.mem_cons_of_mem _ (List.mem_append_left _ hc))
      · intro c hc; rw [hn0] at hc; cases hc
    have hmem2 : ∀ c ∈ u2, c ∈ u1 := by
      rcases hnet with ⟨he, _, _, _⟩ | ⟨_, he, _⟩
      · intro c hc
        rw [he]
        exact List.mem_cons_of_mem _ (List.mem_cons_of_mem _ (List.mem_append_right _ hc))
      · intro c hc; rw [← he]; exact hc
    have hmem3 : ∀ c ∈ u3, c ∈ u2 := by
      rcases hf2 with he | ⟨he, _⟩
      · intro c hc; rw [he]; exact List.mem_append_left _ hc
      · intro c hc; rw [he]; exact hc
    have hmemQ3 : ∀ c ∈ q, c ∈ u3 := by
      rcases hq2 with he | ⟨_, he⟩
      · intro c hc; rw [he]; exact List.mem_append_right _ (List.mem_cons_of_mem _ hc)
      · intro c hc; rw [he] at hc; cases hc
    have hmem4 : ∀ c ∈ u4, c ∈ u3 := by
      rcases hq2 with he | ⟨he, _⟩
      · intro c hc; rw [he]; exact List.mem_append_left _ hc
      · intro c hc; rw [he]; exact hc
    have hmemP : ∀ c ∈ p, c ∈ u4 := by
      rcases hp3 with he | ⟨_, he⟩
      · intro c hc; rw [← he]; exact mem_joinParams_left hc
      · intro c hc; rw [he]; exact List.mem_append_left _ hc
    have hmemPar : ∀ c ∈ par, c ∈ u4 := by
      rcases hp3 with he | ⟨hpe, _⟩
      · intro c hc; rw [← he]; exact mem_joinParams_right hc
      · intro c hc; rw [hpe] at hc; cases hc
    have hpreJ : ∃ w, joinParams p par ++ w = u4 := by
      rcases hp3 with he | ⟨hpe, he⟩
      · exact ⟨[], by rw [List.append_nil]; exact he⟩
      · refine ⟨[';'], ?_⟩
        rw [joinParams, if_pos hpe, ← he]
    refine ⟨?_, ?_, ?_, ?_, ?_, ?_, ?_, ?_, ?_, ?_, ?_, ?_⟩
    · -- hs1
      rcases hscheme with ⟨he, _, _⟩ | ⟨pre, _, _, hall, hmapv⟩
      · intro c hc; rw [he] at hc; cases hc
      · intro c hc
        rw [hmapv] at hc
        obtain ⟨c0, hc0, hce⟩ := List.mem_map.mp hc
        rw [← hce]
        exact (asciiLower_scheme (List.all_eq_true.mp hall c0 hc0)).1
    · -- hs2
      rcases hscheme with ⟨he, _, _⟩ | ⟨pre, _, _, hall, hmapv⟩
      · intro c hc; rw [he] at hc; cases hc
      · intro c hc
        rw [hmapv] at hc
        obtain ⟨c0, hc0, hce⟩ := List.mem_map.mp hc
        rw [← hce]
        exact (asciiLower_scheme (List.all_eq_true.mp hall c0 hc0)).2
    · -- hn
      rcases hnet with ⟨_, hd, _, _⟩ | ⟨hn0, _, _⟩
      · exact hd
      · intro c hc; rw [hn0] at hc; cases hc
    · -- hbr
      rcases hnet with ⟨_, _, hb, _⟩ | ⟨hn0, _, _⟩
      · exact hb
      · rw [hn0]; rfl
    · -- hcln
      intro c hor
      rcases hor with hc | hc | hc | hc
      · exact cleanUrl_no_unsafe url c (hmem1 c (hmemN c hc))
      · exact cleanUrl_no_unsafe url c (hmem1 c (hmem2 c (hmem3 c (hmem4 c (hmemP c hc)))))
      · exact cleanUrl_no_unsafe url c (hmem1 c (hmem2 c (hmem3 c (hmem4 c (hmemPar c hc)))))
      · exact cleanUrl_no_unsafe url c (hmem1 c (hmem2 c (hmem3 c (hmemQ3 c hc))))
    · -- hpF
      exact ⟨fun hm => hf3 (hmem4 _ (hmemP _ hm)), fun hm => hq3 (hmemP _ hm)⟩
    · -- hparF
      exact ⟨fun hm => hf3 (hmem4 _ (hmemPar _ hm)), fun hm => hq3 (hmemPar _ hm)⟩
    · -- hqF
      exact fun hm => hf3 (hmemQ3 _ hm)
    · -- hparS
      exact ⟨hp1, hp2⟩
    · -- hslash
      intro hn0
      rcases hnet with ⟨_, _, _, hu2d⟩ | ⟨hne, _, _⟩
      · exact chain_head hsf hq hp hu2d
      · exact absurd hne hn0
    · -- hnosch
      intro hs0 hn0
      have htq : ∀ d, (optQuery q).head? = some d → isSchemeChar d = false ∧ d ≠ ':' := by
        intro d hd
        rw [optQuery] at hd
        by_cases hq0 : q = []
        · rw [if_pos hq0] at hd; cases hd
        · rw [if_neg hq0] at hd
          simp only [List.head?_cons, Option.some.injEq] at hd
          rw [← hd]
          exact ⟨by decide, by decide⟩
      rcases hnet with ⟨he, _, _, hu2d⟩ | ⟨_, he2, _⟩
      · -- '//' was consumed; the path portion starts with a delimiter or is empty
        rcases chain_head hsf hq hp hu2d with hJ | hJ
        · rw [hJ, List.nil_append]
          rw [optQuery]
          by_cases hq0 : q = []
          · rw [if_pos hq0]; exact nss_nil
          · rw [if_neg hq0]
            exact noSpuriousScheme_of_head (d := '?') rfl (by decide)
        · cases hJc : joinParams p par with
          | nil => rw [hJc] at hJ; cases hJ
          | cons x t =>
            rw [hJc] at hJ
            simp only [List.head?_cons, Option.some.injEq] at hJ
            rw [hJ]
            exact noSpuriousScheme_of_head (d := '/') rfl (by decide)
      · -- no netloc: the path portion is a prefix of the cleaned URL
        rcases hscheme with ⟨_, he1, hnssu⟩ | ⟨pre, _, hpne, _, hmapv⟩
        · have hpre : ∃ w, joinParams p par ++ w = cleanUrl url := by
            obtain ⟨w0, hw0⟩ := hpreJ
            have h43 : ∃ w, u4 ++ w = u3 := by
              rcases hq2 with hqe | ⟨hqe, _⟩
              · exact ⟨'?' :: q, hqe.symm⟩
              · exact ⟨[], by rw [List.append_nil]; exact hqe.symm⟩
            have h32 : ∃ w, u3 ++ w = u2 := by
              rcases hf2 with hfe | ⟨hfe, _⟩
              · exact ⟨'#' :: f, hfe.symm⟩
              · exact ⟨[], by rw [List.append_nil]; exact hfe.symm⟩
            obtain ⟨w1, hw1⟩ := h43
            obtain ⟨w2, hw2⟩ := h32
            refine ⟨w0 ++ (w1 ++ w2), ?_⟩
            rw [← List.append_assoc, hw0, ← List.append_assoc, hw1, hw2, he2, he1]
          exact nss_extend hnssu hpre htq
        · exfalso
          rw [hmapv] at hs0
          have := List.map_eq_nil_iff.mp hs0
          exact hpne this
    · -- hhead
      intro hs0 hn0 c hc
      rcases hnet with ⟨he, _, _, hu2d⟩ | ⟨_, he2, _⟩
      · rcases chain_head hsf hq hp hu2d with hJ | hJ
        · rw [hJ, List.nil_append, optQuery] at hc
          by_cases hq0 : q = []
          · rw [if_pos hq0] at hc; cases hc
          · rw [if_neg hq0] at hc
            simp only [List.head?_cons, Option.some.injEq] at hc
            rw [← hc]
            decide
        · cases hJc : joinParams p par with
          | nil => rw [hJc] at hJ; cases hJ
          | cons x t =>
            rw [hJc] at hJ
            simp only [List.head?_cons, Option.some.injEq] at hJ
            rw [hJc] at hc
            simp only [List.cons_append, List.head?_cons, Option.some.injEq] at hc
            rw [← hc, hJ]
            decide
      · rcases hscheme with ⟨_, he1, _⟩ | ⟨pre, _, hpne, _, hmapv⟩
        · cases hJc : joinParams p par with
          | nil =>
            rw [hJc, List.nil_append, optQuery] at hc
            by_cases hq0 : q = []
            · rw [if_pos hq0] at hc; cases hc
            · rw [if_neg hq0] at hc
              simp only [List.head?_cons, Option.some.injEq] at hc
              rw [← hc]
              decide
          | cons x t =>
            rw [hJc] at hc
            simp only [List.cons_append, List.head?_cons, Option.some.injEq] at hc
            obtain ⟨w0, hw0⟩ := hpreJ
            have h43 : ∃ w, u4 ++ w = u3 := by
              rcases hq2 with hqe | ⟨hqe, _⟩
              · exact ⟨'?' :: q, hqe.symm⟩
              · exact ⟨[], by rw [List.append_nil]; exact hqe.symm⟩
            have h32 : ∃ w, u3 ++ w = u2 := by
              rcases hf2 with hfe | ⟨hfe, _⟩
              · exact ⟨'#' :: f, hfe.symm⟩
              · exact ⟨[], by rw [List.append_nil]; exact hfe.symm⟩
            obtain ⟨w1, hw1⟩ := h43
            obtain ⟨w2, hw2⟩ := h32
            have hwhole : (x :: t) ++ (w0 ++ (w1 ++ w2)) = cleanUrl url := by
              rw [← hJc, ← List.append_assoc, hw0, ← List.append_assoc, hw1, hw2, he2, he1]
            have hh : (cleanUrl url).head? = some x := by
              rw [← hwhole]
              rfl
            rw [← hc]
            exact cleanUrl_head url x hh
        · exfalso
          rw [hmapv] at hs0
          have := List.map_eq_nil_iff.mp hs0
          exact hpne this

theorem mem_joinParams {p par : Str} {c : Char} (h : c ∈ joinParams p par) :
    c ∈ p ∨ c = ';' ∨ c ∈ par := by
  rw [joinParams] at h
  by_cases hp : par = []
  · rw [if_pos hp] at h; exact Or.inl h
  · rw [if_neg hp] at h
    rcases List.mem_append.mp h with h1 | h1
    · exact Or.inl h1
    · rcases List.mem_cons.mp h1 with h1 | h1
      · exact Or.inr (Or.inl h1)
      · exact Or.inr (Or.inr h1)

theorem mem_optQuery {q : Str} {c : Char} (h : c ∈ optQuery q) : c = '?' ∨ c ∈ q := by
  rw [optQuery] at h
  by_cases hq : q = []
  · rw [if_pos hq] at h; cases h
  · rw [if_neg hq] at h
    rcases List.mem_cons.mp h with h1 | h1
    · exact Or.inl h1
    · exact Or.inr h1

theorem optQuery_shape (q : Str) : optQuery q = [] ∨ ∃ t, optQuery q = '?' :: t := by
  rw [optQuery]
  by_cases hq : q = []
  · rw [if_pos hq]; exact Or.inl rfl
  · rw [if_neg hq]; exact Or.inr ⟨q, rfl⟩

theorem take2_ne {J Q : Str} (h : ¬(J ≠ [] ∧ J.take 2 = ['/', '/']))
    (hQ : Q = [] ∨ ∃ t, Q = '?' :: t) : (J ++ Q).take 2 ≠ ['/', '/'] := by
  cases J with
  | nil =>
    rcases hQ with h1 | ⟨t, h1⟩
    · rw [h1]
      simp
    · rw [h1]
      intro hc
      simp only [List.nil_append, List.take] at hc
      injection hc with hc1 hc2
      cases hc1
  | cons x J2 =>
    have hx2 : (x :: J2).take 2 ≠ ['/', '/'] := fun hc => h ⟨by simp, hc⟩
    cases J2 with
    | cons y J3 =>
      intro hc
      apply hx2
      simp only [List.cons_append, List.take] at hc ⊢
      injection hc with hc1 hc2
      injection hc2 with hc2 hc3
      rw [hc1, hc2]
    | nil =>
      rcases hQ with h1 | ⟨t, h1⟩
      · rw [h1]
        simp
      · rw [h1]
        intro hc
        simp only [List.cons_append, List.nil_append, List.take] at hc
        injection hc with hc1 hc2
        injection hc2 with hc2 hc3
        cases hc2

/-- Assembling a run of `urlparse` from the outcomes of its stages. -/
theorem urlparse_build {w v u2 u3 u4 s n f q p par : Str}
    (hclean : cleanUrl w = w)
    (hsch : splitScheme w = (s, v))
    (hnet : splitNetloc v = Except.ok (n, u2))
    (hfrag : splitFragment u2 = (u3, f))
    (hquery : splitQuery u3 = (u4, q))
    (hparams : splitParams u4 = (p, par)) :
    urlparse w = Except.ok ⟨s, n, p, par, q, f⟩ := by
  rw [urlparse, hclean, hsch]
  dsimp only
  rw [hnet]
  simp only [bind, Except.bind]
  rw [hfrag]
  dsimp only
  rw [hquery]
  dsimp only
  rw [hparams]

theorem unparse_parse {r : UrlParts} (hwf : UrlWF r) (hfr : r.fragment = []) :
    urlparse (urlunparse r) = Except.ok r := by
  obtain ⟨s, n, p, par, q, f⟩ := r
  have hf0 : f = [] := hfr
  subst hf0
  have hs1 : ∀ c ∈ s, isSchemeChar c = true := hwf.hs1
  have hs2 : ∀ c ∈ s, asciiLower c = c := hwf.hs2
  have hnD : ∀ c ∈ n, netlocDelim c = false := hwf.hn
  have hbr : n.contains '[' = n.contains ']' := hwf.hbr
  have hcln : ∀ c, c ∈ n ∨ c ∈ p ∨ c ∈ par ∨ c ∈ q → unsafeChar c = false := hwf.hcln
  have hpF : '#' ∉ p ∧ '?' ∉ p := hwf.hpF
  have hparF : '#' ∉ par ∧ '?' ∉ par := hwf.hparF
  have hqF : '#' ∉ q := hwf.hqF
  have hparS : '/' ∉ par ∧ ';' ∉ extBase p := hwf.hparS
  have hslash : n ≠ [] →
      joinParams p par = [] ∨ (joinParams p par).head? = some '/' := hwf.hslash
  have hnosch : s = [] → n = [] →
      noSpuriousScheme (joinParams p par ++ optQuery q) := hwf.hnosch
  have hheadI : s = [] → n = [] → ∀ c,
      (joinParams p par ++ optQuery q).head? = some c → strippable c = false := hwf.hhead
  have hJun : ∀ c ∈ joinParams p par ++ optQuery q, unsafeChar c = false := by
    intro c hc
    rcases List.mem_append.mp hc with h | h
    · rcases mem_joinParams h with h1 | h1 | h1
      · exact hcln c (Or.inr (Or.inl h1))
      · rw [h1]; decide
      · exact hcln c (Or.inr (Or.inr (Or.inl h1)))
    · rcases mem_optQuery h with h1 | h1
      · rw [h1]; decide
      · exact hcln c (Or.inr (Or.inr (Or.inr h1)))
  have hnoHash : '#' ∉ joinParams p par ++ optQuery q := by
    intro hm
    rcases List.mem_append.mp hm with h | h
    · rcases mem_joinParams h with h1 | h1 | h1
      · exact hpF.1 h1
      · cases h1
      · exact hparF.1 h1
    · rcases mem_optQuery h with h1 | h1
      · cases h1
      · exact hqF h1
  have hnoQJ : '?' ∉ joinParams p par := by
    intro hm
    rcases mem_joinParams hm with h1 | h1 | h1
    · exact hpF.2 h1
    · cases h1
    · exact hparF.2 h1
  have hfragE : splitFragment (joinParams p par ++ optQuery q) =
      (joinParams p par ++ optQuery q, []) := splitFragment_intro hnoHash
  have hqueryE : splitQuery (joinParams p par ++ optQuery q) = (joinParams p par, q) := by
    rw [optQuery]
    by_cases hq0 : q = []
    · rw [if_pos hq0, List.append_nil, splitQuery_none_intro hnoQJ, hq0]
    · rw [if_neg hq0]
      exact splitQuery_intro hnoQJ
  have hparamsE : splitParams (joinParams p par) = (p, par) :=
    splitParams_join hparS.1 hparS.2
  by_cases hcond : n ≠ [] ∨ (joinParams p par ≠ [] ∧ (joinParams p par).take 2 = ['/', '/'])
  · have hJd : joinParams p par = [] ∨ (joinParams p par).head? = some '/' := by
      rcases hcond with hne | ⟨hJne, hJ2⟩
      · exact hslash hne
      · right
        rw [take_two_shape hJ2]
        rfl
    have hinner : (if joinParams p par ≠ [] ∧ (joinParams p par).head? ≠ some '/'
        then '/' :: joinParams p par else joinParams p par) = joinParams p par := by
      rcases hJd with h | h
      · rw [if_neg (by simp [h])]
      · rw [if_neg (by simp [h])]
    have hW : urlunparse ⟨s, n, p, par, q, []⟩ =
        (if s ≠ [] then s ++ ':' :: ('/' :: '/' :: (n ++ (joinParams p par ++ optQuery q)))
          else '/' :: '/' :: (n ++ (joinParams p par ++ optQuery q))) := by
      rw [urlunparse]
      dsimp only
      rw [urlunsplit]
      rw [if_pos hcond, hinner, if_neg (by simp)]
      by_cases hq0 : q = [] <;> by_cases hs0 : s = [] <;>
        simp [hq0, hs0, optQuery, List.append_assoc]
    have hrest : joinParams p par ++ optQuery q = [] ∨
        ∃ d, (joinParams p par ++ optQuery q).head? = some d ∧ netlocDelim d = true := by
      rcases hJd with h | h
      · rw [h, List.nil_append]
        rcases optQuery_shape q with h1 | ⟨t, h1⟩
        · exact Or.inl h1
        · right
          exact ⟨'?', by rw [h1]; rfl, by decide⟩
      · right
        cases hJc : joinParams p par with
        | nil => rw [hJc] at h; cases h
        | cons x t =>
          rw [hJc] at h
          simp only [List.head?_cons, Option.some.injEq] at h
          refine ⟨'/', ?_, by decide⟩
          rw [List.cons_append, List.head?_cons, h]
    have hnetE : splitNetloc ('/' :: '/' :: (n ++ (joinParams p par ++ optQuery q))) =
        Except.ok (n, joinParams p par ++ optQuery q) :=
      splitNetloc_intro hnD hbr hrest
    rw [hW]
    by_cases hs0 : s = []
    · rw [if_neg (by simp [hs0])]
      subst hs0
      have hclean : cleanUrl ('/' :: '/' :: (n ++ (joinParams p par ++ optQuery q))) =
          '/' :: '/' :: (n ++ (joinParams p par ++ optQuery q)) := by
        apply cleanUrl_eq_self
        · intro c hc
          rcases List.mem_cons.mp hc with h1 | h1
          · rw [h1]; decide
          · rcases List.mem_cons.mp h1 with h2 | h2
            · rw [h2]; decide
            · rcases List.mem_append.mp h2 with h3 | h3
              · exact hcln c (Or.inl h3)
              · exact hJun c h3
        · intro c hc
          simp only [List.head?_cons, Option.some.injEq] at hc
          rw [← hc]
          decide
      have hsch : splitScheme ('/' :: '/' :: (n ++ (joinParams p par ++ optQuery q))) =
          ([], '/' :: '/' :: (n ++ (joinParams p par ++ optQuery q))) :=
        splitScheme_none_of (noSpuriousScheme_of_head (d := '/') rfl (by decide))
      exact urlparse_build hclean hsch hnetE hfragE hqueryE hparamsE
    · rw [if_pos hs0]
      have hclean : cleanUrl (s ++ ':' :: ('/' :: '/' :: (n ++ (joinParams p par ++ optQuery q)))) =
          s ++ ':' :: ('/' :: '/' :: (n ++ (joinParams p par ++ optQuery q))) := by
        apply cleanUrl_eq_self
        · intro c hc
          rcases List.mem_append.mp hc with h1 | h1
          · exact isSchemeChar_not_unsafe (hs1 c h1)
          · rcases List.mem_cons.mp h1 with h2 | h2
            · rw [h2]; decide
            · rcases List.mem_cons.mp h2 with h3 | h3
              · rw [h3]; decide
              · rcases List.mem_cons.mp h3 with h4 | h4
                · rw [h4]; decide
                · rcases List.mem_append.mp h4 with h5 | h5
                  · exact hcln c (Or.inl h5)
                  · exact hJun c h5
        · intro c hc
          cases hsc : s with
          | nil => exact absurd hsc hs0
          | cons x t =>
            rw [hsc] at hc
            simp only [List.cons_append, List.head?_cons, Option.some.injEq] at hc
            rw [← hc]
            exact isSchemeChar_not_strippable (hs1 x (by rw [hsc]; simp))
      exact urlparse_build hclean (splitScheme_intro hs0 hs1 hs2) hnetE hfragE hqueryE hparamsE
  · push_neg at hcond
    obtain ⟨hn0, hJ2⟩ := hcond
    have hn0' : n = [] := by simpa using hn0
    subst hn0'
    have hnetE : splitNetloc (joinParams p par ++ optQuery q) =
        Except.ok ([], joinParams p par ++ optQuery q) :=
      splitNetloc_none_intro (take2_ne (fun hc => hJ2 hc.1 hc.2) (optQuery_shape q))
    have hW : urlunparse ⟨s, [], p, par, q, []⟩ =
        (if s ≠ [] then s ++ ':' :: (joinParams p par ++ optQuery q)
          else joinParams p par ++ optQuery q) := by
      rw [urlunparse]
      dsimp only
      rw [urlunsplit]
      have hncond : ¬((([] : Str) ≠ []) ∨
          (joinParams p par ≠ [] ∧ (joinParams p par).take 2 = ['/', '/'])) := by
        intro hor
        rcases hor with h1 | h1
        · exact h1 rfl
        · exact hJ2 h1.1 h1.2
      rw [if_neg hncond, if_neg (by simp)]
      by_cases hq0 : q = [] <;> by_cases hs0 : s = [] <;>
        simp [hq0, hs0, optQuery, List.append_assoc]
    rw [hW]
    by_cases hs0 : s = []
    · rw [if_neg (by simp [hs0])]
      subst hs0
      have hclean : cleanUrl (joinParams p par ++ optQuery q) =
          joinParams p par ++ optQuery q := by
        apply cleanUrl_eq_self
        · exact hJun
        · exact hheadI rfl rfl
      have hsch : splitScheme (joinParams p par ++ optQuery q) =
          ([], joinParams p par ++ optQuery q) :=
        splitScheme_none_of (hnosch rfl rfl)
      exact urlparse_build hclean hsch hnetE hfragE hqueryE hparamsE
    · rw [if_pos hs0]
      have hclean : cleanUrl (s ++ ':' :: (joinParams p par ++ optQuery q)) =
          s ++ ':' :: (joinParams p par ++ optQuery q) := by
        apply cleanUrl_eq_self
        · intro c hc
          rcases List.mem_append.mp hc with h1 | h1
          · exact isSchemeChar_not_unsafe (hs1 c h1)
          · rcases List.mem_cons.mp h1 with h2 | h2
            · rw [h2]; decide
            · exact hJun c h2
        · intro c hc
          cases hsc : s with
          | nil => exact absurd hsc hs0
          | cons x t =>
            rw [hsc] at hc
            simp only [List.cons_append, List.head?_cons, Option.some.injEq] at hc
            rw [← hc]
            exact isSchemeChar_not_strippable (hs1 x (by rw [hsc]; simp))
      exact urlparse_build hclean (splitScheme_intro hs0 hs1 hs2) hnetE hfragE hqueryE hparamsE

theorem wf_strip {r : UrlParts} (h : UrlWF r) : UrlWF { r with fragment := [] } :=
  ⟨h.hs1, h.hs2, h.hn, h.hbr, h.hcln, h.hpF, h.hparF, h.hqF, h.hparS,
    h.hslash, h.hnosch, h.hhead⟩

/-- Claim C8: `normalize_url` strips the fragment and preserves scheme,
host, path, params and query — re-parsing its output recovers exactly the
original components with an empty fragment; it is idempotent —
`normalize(normalize(u)) = normalize(u)` whenever it succeeds; and any two
URLs whose parses differ only in the fragment normalize to identical
strings. -/
theorem claim_C8_normalize (url : Str) (r : UrlParts) (h : urlparse url = Except.ok r) :
    (normalizeUrl url = Except.ok (urlunparse { r with fragment := [] }) ∧
      urlparse (urlunparse { r with fragment := [] }) = Except.ok { r with fragment := [] }) ∧
    (∀ v, normalizeUrl url = Except.ok v → normalizeUrl v = Except.ok v) ∧
    (∀ u' r', urlparse u' = Except.ok r' → r.scheme = r'.scheme → r.netloc = r'.netloc →
      r.path = r'.path → r.params = r'.params → r.query = r'.query →
      normalizeUrl url = normalizeUrl u') := by
  have hroundtrip : urlparse (urlunparse { r with fragment := [] }) =
      Except.ok { r with fragment := [] } :=
    unparse_parse (wf_strip (parse_wf h)) rfl
  refine ⟨⟨?_, hroundtrip⟩, ?_, ?_⟩
  · rw [normalizeUrl, h]
    rfl
  · intro v hv
    rw [normalizeUrl, h] at hv
    simp only [Except.map] at hv
    injection hv with hv
    rw [hv] at hroundtrip
    rw [normalizeUrl, hroundtrip]
    simp only [Except.map]
    rw [hv]
  · intro u' r' h' hse hne hpe hpare hqe
    rw [normalizeUrl, normalizeUrl, h, h']
    simp only [Except.map]
    have he : ({ r with fragment := [] } : UrlParts) = { r' with fragment := [] } := by
      obtain ⟨s1, n1, p1, par1, q1, f1⟩ := r
      obtain ⟨s2, n2, p2, par2, q2, f2⟩ := r'
      simp only at hse hne hpe hpare hqe
      rw [hse, hne, hpe, hpare, hqe]
    rw [he]

/-- The URL of end-to-end scenario 3, fragment included. -/
def uFrag : Str := ("https://angular.dev/docs/guide#install").toList

/-- Its parse. -/
def rFrag : UrlParts :=
  ⟨("https").toList, ("angular.dev").toList, ("/docs/guide").toList, [], [],
    ("install").toList⟩

theorem claim_C8_witness :
    urlparse uFrag = Except.ok rFrag ∧
      ((normalizeUrl uFrag = Except.ok (urlunparse { rFrag with fragment := [] }) ∧
        urlparse (urlunparse { rFrag with fragment := [] }) =
          Except.ok { rFrag with fragment := [] }) ∧
      (∀ v, normalizeUrl uFrag = Except.ok v → normalizeUrl v = Except.ok v) ∧
      (∀ u' r', urlparse u' = Except.ok r' → rFrag.scheme = r'.scheme →
        rFrag.netloc = r'.netloc → rFrag.path = r'.path → rFrag.params = r'.params →
        rFrag.query = r'.query → normalizeUrl uFrag = normalizeUrl u')) :=
  ⟨by rfl, claim_C8_normalize uFrag rFrag (by rfl)⟩

example : normalizeUrl uFrag = Except.ok ("https://angular.dev/docs/guide").toList := by rfl
